import Mathlib

/-!
BITFLIPS SEU simulator: a shallow embedding of `bf_main.c`

The embedding follows `src/bf_main.c` and `src/bitflips.h` for a 64-bit host:
`UInt` is 32 bits wide, `UWord`, `Addr`, `SizeT` and `ULong` are 64 bits wide,
`UChar` is 8 bits wide.  Machine integers are natural numbers reduced modulo
the width of their C type.  Operations that C leaves undefined (a shift by the
width of the type or more, a division or remainder by zero, a conversion of a
floating-point value that does not fit the target integer type) yield `none`.
Floating-point quantities (`float`, `double`) are exact rationals.

`VG_(random)` belongs to the host framework, not to this repository; it is a
parameter of the embedding (`Random`).
-/

namespace BitFlips

/-! ## Machine arithmetic -/

/-- Number of values of a `UChar`. -/
def UCHAR_MOD : Nat := 2 ^ 8

/-- Number of values of a `UInt`. -/
def UINT_MOD : Nat := 2 ^ 32

/-- Number of values of a `UWord` (also `Addr`, `SizeT`, `ULong`). -/
def UWORD_MOD : Nat := 2 ^ 64

/-- Left shift of a `UWord`, as in `x << n`; undefined for `n >= 64`. -/
def shlUL (x n : Nat) : Option Nat :=
  if n < 64 then some ((x <<< n) % UWORD_MOD) else none

/-- Right shift of a `UWord`, as in `x >> n`; undefined for `n >= 64`. -/
def shrUL (x n : Nat) : Option Nat :=
  if n < 64 then some (x >>> n) else none

/-- Bitwise complement of a `UWord`, as in `~x`. -/
def notUL (x : Nat) : Nat := UWORD_MOD - 1 - x % UWORD_MOD

/-- Unsigned remainder `a % n`; undefined for `n = 0`. -/
def umod (a n : Nat) : Option Nat :=
  if n = 0 then none else some (a % n)

/-- Unsigned quotient `a / n`; undefined for `n = 0`. -/
def udiv (a n : Nat) : Option Nat :=
  if n = 0 then none else some (a / n)

/-- Conversion `(UInt) x` of a floating-point value: truncation toward zero,
undefined unless the truncated value fits in 32 bits. -/
def toUInt (x : ℚ) : Option Nat :=
  if -1 < x ∧ x < (UINT_MOD : ℚ) then some (Int.toNat ⌊x⌋) else none

/-- Number of set bits of a `UWord`. -/
def popcount (x : Nat) : Nat :=
  ((Finset.range 64).filter (fun k => x.testBit k = true)).card

/-! ## The host random number generator -/

/-- The generator `VG_(random)(&seed)`: `value s` is the number returned when the
seed is `s`, `next s` the seed left behind. -/
structure Random where
  value : Nat → Nat
  next : Nat → Nat

/-- A linear congruential generator on 32-bit seeds, used for concrete runs. -/
def lcg : Random where
  value := fun s => (1103515245 * s + 12345) % UINT_MOD
  next := fun s => (1103515245 * s + 12345) % UINT_MOD

/-- `BF_(randomInt)(seed, n)`: `VG_(random)(seed) % n`, with the new seed. -/
def randomInt (R : Random) (seed n : Nat) : Option (Nat × Nat) :=
  (umod (R.value seed % UINT_MOD) n).map (fun v => (v, R.next seed))

/-! ## Density table -/

/-- One row of `BitFlipDensity`. -/
structure Distribution where
  bits : Nat
  lo : Nat
  hi : Nat
deriving DecidableEq, Repr

/-- The table `BitFlipDensity`. -/
def BitFlipDensity : List Distribution :=
  [ { bits := 1, lo := 0, hi := 60 },
    { bits := 2, lo := 61, hi := 90 },
    { bits := 3, lo := 91, hi := 95 },
    { bits := 4, lo := 96, hi := 97 },
    { bits := 5, lo := 97, hi := 97 },
    { bits := 6, lo := 98, hi := 98 },
    { bits := 7, lo := 99, hi := 99 } ]

/-- The scan of `BF_(getFlipSize)` over table rows: the `bits` of the first row
whose range holds `rand`, and `0` when there is none. -/
def getFlipSize_scan (rand : Nat) : List Distribution → Nat
  | [] => 0
  | d :: rest => if rand ≥ d.lo ∧ rand ≤ d.hi then d.bits else getFlipSize_scan rand rest

/-- `BF_(getFlipSize)`: the number of bits to flip and the new seed. -/
def getFlipSize (R : Random) (seed : Nat) : Nat × Nat :=
  (getFlipSize_scan ((R.value seed % UINT_MOD) % 100) BitFlipDensity, R.next seed)

/-! ## Mask generator -/

/-- One pass of the shuffle loop of `BF_(getFlipMask)` at position `i`:
draws `swap`, then exchanges bits `swap` and `i` of `mask`. -/
def getFlipMask_step (R : Random) (i mask seed : Nat) : Option (Nat × Nat) :=
  (umod (R.value seed % UINT_MOD) (i + 1)).bind fun r =>
  let swap := r % UCHAR_MOD
  (shrUL mask swap).bind fun s1 =>
  (shrUL mask i).bind fun s2 =>
  let bit1 := (s1 &&& 1) % UCHAR_MOD
  let bit2 := (s2 &&& 1) % UCHAR_MOD
  let xor := bit1 ^^^ bit2
  (shlUL xor swap).bind fun x1 =>
  (shlUL xor i).bind fun x2 =>
  some (mask ^^^ (x1 ||| x2), R.next seed)

/-- The loop `for (i = width - 1; i > 0; i--)` of `BF_(getFlipMask)`, entered at `i`. -/
def getFlipMask_loop (R : Random) : Nat → Nat → Nat → Option (Nat × Nat)
  | 0, mask, seed => some (mask, seed)
  | i + 1, mask, seed =>
    (getFlipMask_step R (i + 1) mask seed).bind fun p => getFlipMask_loop R i p.1 p.2

/-- `BF_(getFlipMask)(width, flips)`: the mask and the new seed. -/
def getFlipMask (R : Random) (seed width flips : Nat) : Option (Nat × Nat) :=
  if flips = 1 then
    (umod (R.value seed % UINT_MOD) width).bind fun k =>
    (shlUL 1 k).map fun m => (m, R.next seed)
  else
    (shlUL (notUL 0) flips).bind fun sh =>
    getFlipMask_loop R (((width + UINT_MOD - 1) % UINT_MOD) % UCHAR_MOD) (notUL sh) seed

/-- The word obtained from `mask` by the XOR exchange of bits `s` and `i`. -/
def exchanged (mask s i : Nat) : Nat :=
  let xor := (((mask >>> s) &&& 1) % UCHAR_MOD) ^^^ (((mask >>> i) &&& 1) % UCHAR_MOD)
  mask ^^^ (((xor <<< s) % UWORD_MOD) ||| ((xor <<< i) % UWORD_MOD))


/-! ## Element types and layouts (`bitflips.h`) -/

def BITFLIPS_CHAR : Nat := 1
def BITFLIPS_UCHAR : Nat := 2
def BITFLIPS_SHORT : Nat := 4
def BITFLIPS_USHORT : Nat := 8
def BITFLIPS_INT : Nat := 16
def BITFLIPS_UINT : Nat := 32
def BITFLIPS_LONG : Nat := 64
def BITFLIPS_ULONG : Nat := 128
def BITFLIPS_FLOAT : Nat := 256
def BITFLIPS_DOUBLE : Nat := 512
def BITFLIPS_ROW_MAJOR : Nat := 1024
def BITFLIPS_COL_MAJOR : Nat := 2048

/-- `BF_(sizeof)`: bytes of storage of an element type (`sizeof(long)` is 8). -/
def sizeof (type : Nat) : Nat :=
  if type = BITFLIPS_CHAR ∨ type = BITFLIPS_UCHAR then 1
  else if type = BITFLIPS_SHORT ∨ type = BITFLIPS_USHORT then 2
  else if type = BITFLIPS_INT ∨ type = BITFLIPS_UINT then 4
  else if type = BITFLIPS_LONG ∨ type = BITFLIPS_ULONG then 8
  else if type = BITFLIPS_FLOAT then 4
  else if type = BITFLIPS_DOUBLE then 8
  else 0

/-! ## Memory regions and engine state -/

/-- The record `VgBF_MemBlock_t`; the `next` pointer is the tail of the list that
holds the block.  `desc` and `where_` are opaque labels. -/
structure MemBlock where
  start : Nat
  end_ : Nat
  num_bytes : Nat
  num_rows : Nat
  num_cols : Nat
  num_elems : Nat
  num_kilobytes : ℚ
  num_faults_pending : ℚ
  desc : Nat
  type : Nat
  layout : Nat
  where_ : Nat
deriving DecidableEq

/-- The globals of `bf_main.c` together with the guest memory (one byte per address). -/
structure State where
  FaultCount : Nat
  FaultRate : ℚ
  FaultInjection : Bool
  InstructionCount : Nat
  KilobyteFlux : ℚ
  Seed : Nat
  Verbose : Bool
  MemBlockHead : List MemBlock
  memory : Nat → Nat

/-- The globals as initialised in the source, over a given guest memory. -/
def initial (memory : Nat → Nat) : State where
  FaultCount := 0
  FaultRate := 0
  FaultInjection := true
  InstructionCount := 0
  KilobyteFlux := 0
  Seed := 42
  Verbose := false
  MemBlockHead := []
  memory := memory

/-- `BF_(MemBlock_getCol)`. -/
def MemBlock_getCol (block : MemBlock) (addr : Nat) : Option Nat :=
  (udiv ((addr + UWORD_MOD - block.start % UWORD_MOD) % UWORD_MOD) (sizeof block.type)).bind
    fun q =>
  let offset := q % UINT_MOD
  if block.layout = BITFLIPS_COL_MAJOR then
    (udiv offset block.num_rows).map fun r => r % UINT_MOD
  else
    (umod offset block.num_rows).map fun r => r % UINT_MOD

/-- `BF_(MemBlock_getRow)`. -/
def MemBlock_getRow (block : MemBlock) (addr : Nat) : Option Nat :=
  (udiv ((addr + UWORD_MOD - block.start % UWORD_MOD) % UWORD_MOD) (sizeof block.type)).bind
    fun q =>
  let offset := q % UINT_MOD
  if block.layout = BITFLIPS_ROW_MAJOR then
    (udiv offset block.num_cols).map fun r => r % UINT_MOD
  else
    (umod offset block.num_cols).map fun r => r % UINT_MOD

/-- The block `BF_(MemOn)` builds from a client request `arg[1..5]` of thread `tid`. -/
def MemOn_block (tid : Nat) (arg : Nat → Nat) : MemBlock :=
  let start := arg 1 % UWORD_MOD
  let num_rows := arg 2 % UWORD_MOD
  let num_cols := arg 3 % UWORD_MOD
  let type := (arg 5 % UWORD_MOD) &&& (BITFLIPS_ROW_MAJOR - 1)
  let layout := (arg 5 % UWORD_MOD) &&& (BITFLIPS_ROW_MAJOR + BITFLIPS_COL_MAJOR)
  let bytes := sizeof type
  let num_elems := (num_rows * num_cols) % UWORD_MOD
  let num_bytes := (num_elems * bytes) % UWORD_MOD
  { start := start
    end_ := (start + num_bytes + UWORD_MOD - 1) % UWORD_MOD
    num_bytes := num_bytes
    num_rows := num_rows
    num_cols := num_cols
    num_elems := num_elems
    num_kilobytes := (num_bytes : ℚ) / 1000
    num_faults_pending := 0
    desc := arg 4 % UWORD_MOD
    type := type
    layout := layout
    where_ := tid }

/-- `BF_(MemOn)`: the new block becomes the head of the list. -/
def MemOn (s : State) (tid : Nat) (arg : Nat → Nat) : State :=
  { s with MemBlockHead := MemOn_block tid arg :: s.MemBlockHead }

/-- The scan of `BF_(MemOff)`: `prev` holds the blocks already passed, in order. -/
def MemOff_loop (a : Nat) : List MemBlock → List MemBlock → List MemBlock
  | prev, [] => prev
  | prev, block :: rest =>
    if block.start = a then prev ++ rest else MemOff_loop a (prev ++ [block]) rest

/-- `BF_(MemOff)`. -/
def MemOff (s : State) (arg : Nat → Nat) : State :=
  { s with MemBlockHead := MemOff_loop (arg 1 % UWORD_MOD) [] s.MemBlockHead }

/-! ## Guest memory -/

/-- The `n`-byte little-endian value at `addr`. -/
def load (mem : Nat → Nat) (addr : Nat) : Nat → Nat
  | 0 => 0
  | n + 1 => mem addr % 256 + 256 * load mem (addr + 1) n

/-- Memory after writing the low `n` bytes of `v` at `addr`, little-endian. -/
def store (mem : Nat → Nat) (addr n v : Nat) : Nat → Nat :=
  fun a => if addr ≤ a ∧ a < addr + n then (v / 256 ^ (a - addr)) % 256 else mem a

/-! ## Flip events and the fault check -/

/-- One of the four branches of `BF_(doFlipBits)`, for an element of `bytes` bytes:
sample the flip count, build the mask, XOR it into the element, count the fault. -/
def doFlipBits_branch (R : Random) (s : State) (addr bytes : Nat) : Option State :=
  let fs := getFlipSize R s.Seed
  (getFlipMask R fs.2 (8 * bytes) fs.1).map fun ms =>
    let mask := ms.1 % 2 ^ (8 * bytes)
    let original := load s.memory addr bytes
    let flipped := (original ^^^ mask) % 2 ^ (8 * bytes)
    { s with
      Seed := ms.2
      memory := store s.memory addr bytes flipped
      FaultCount := (s.FaultCount + 1) % UINT_MOD }

/-- `BF_(doFlipBits)`.  The diagnostic line printed when `Verbose` is set changes no state. -/
def doFlipBits (R : Random) (s : State) (addr size : Nat) (block : MemBlock) : Option State :=
  (MemBlock_getRow block addr).bind fun _ =>
  (MemBlock_getCol block addr).bind fun _ =>
  if size = 1 then doFlipBits_branch R s addr 1
  else if size = 2 then doFlipBits_branch R s addr 2
  else if size = 4 then doFlipBits_branch R s addr 4
  else if size = 8 then doFlipBits_branch R s addr 8
  else some s

/-- The loop `while (whole_faults > 0)` of `BF_(doFaultCheck)` for one block. -/
def doFaultCheck_flips (R : Random) (block : MemBlock) : Nat → State → Option State
  | 0, s => some s
  | whole_faults + 1, s =>
    (randomInt R s.Seed (block.num_elems % UINT_MOD)).bind fun p =>
    let size := sizeof block.type
    let addr := (block.start + (p.1 * size) % UINT_MOD) % UWORD_MOD
    (doFlipBits R { s with Seed := p.2 } addr size block).bind fun s' =>
    doFaultCheck_flips R block whole_faults s'

/-- The local `total_faults` of `BF_(doFaultCheck)` for one block. -/
def total_faults (FaultRate : ℚ) (block : MemBlock) : ℚ :=
  let pending := block.num_faults_pending
  let fraction := block.num_kilobytes
  (FaultRate * fraction) + pending

/-- The local `whole_faults` of `BF_(doFaultCheck)` for one block: `(UInt) total_faults`. -/
def whole_faults (FaultRate : ℚ) (block : MemBlock) : Option Nat :=
  toUInt (total_faults FaultRate block)

/-- The loop `while (block != 0)` of `BF_(doFaultCheck)`: the state after the blocks
and the blocks with their new `num_faults_pending`. -/
def doFaultCheck_blocks (R : Random) : State → List MemBlock → Option (State × List MemBlock)
  | s, [] => some (s, [])
  | s, block :: rest =>
    (whole_faults s.FaultRate block).bind fun whole =>
    let block' :=
      { block with num_faults_pending := total_faults s.FaultRate block - (whole : ℚ) }
    let s1 := { s with KilobyteFlux := s.KilobyteFlux + block.num_kilobytes }
    (doFaultCheck_flips R block' whole s1).bind fun s2 =>
    (doFaultCheck_blocks R s2 rest).map fun r => (r.1, block' :: r.2)

/-- `BF_(doFaultCheck)`. -/
def doFaultCheck (R : Random) (s : State) : Option State :=
  let s0 := { s with InstructionCount := (s.InstructionCount + 1) % UWORD_MOD }
  if s0.FaultInjection = true then
    (doFaultCheck_blocks R s0 s0.MemBlockHead).map fun r => { r.1 with MemBlockHead := r.2 }
  else
    some s0

/-- The fault check called `n` times in a row. -/
def ticks (R : Random) : Nat → State → Option State
  | 0, s => some s
  | n + 1, s => (doFaultCheck R s).bind fun s' => ticks R n s'

/-! ## Auxiliary definitions used in the statements -/

/-- A block after one armed fault check at the given rate: only the pending
fraction changes, to the fractional part of `total_faults`. -/
def advance (FaultRate : ℚ) (block : MemBlock) : MemBlock :=
  { block with
    num_faults_pending :=
      total_faults FaultRate block - ((Int.toNat ⌊total_faults FaultRate block⌋ : Nat) : ℚ) }

/-- The derived fields of a block are related as `BF_(MemOn)` computes them, and the
32-bit element count handed to `BF_(randomInt)` is not zero when the block has bytes. -/
def WellFormed (b : MemBlock) : Prop :=
  b.num_elems = (b.num_rows * b.num_cols) % UWORD_MOD ∧
  b.num_bytes = (b.num_elems * sizeof b.type) % UWORD_MOD ∧
  b.num_kilobytes = (b.num_bytes : ℚ) / 1000 ∧
  (b.num_bytes ≠ 0 → b.num_elems % UINT_MOD ≠ 0)

/-- The pending fraction of a block lies in `[0, 1)`. -/
def CarryInRange (b : MemBlock) : Prop :=
  0 ≤ b.num_faults_pending ∧ b.num_faults_pending < 1

/-- The fault counter after one more flip: `FaultCount++` on a `UInt`. -/
def bump (c : Nat) : Nat := (c + 1) % UINT_MOD

/-- The fault check is defined on a block at the given rate: the conversion to `UInt`
is, and when flips are due the element count, type, rows and columns are not zero. -/
def TickReady (FaultRate : ℚ) (b : MemBlock) : Prop :=
  -1 < total_faults FaultRate b ∧ total_faults FaultRate b < (UINT_MOD : ℚ) ∧
  (Int.toNat ⌊total_faults FaultRate b⌋ ≠ 0 →
    b.num_elems % UINT_MOD ≠ 0 ∧ sizeof b.type ≠ 0 ∧ b.num_rows ≠ 0 ∧ b.num_cols ≠ 0)

/-- The block `b` with pending fraction `c`. -/
def withPending (b : MemBlock) (c : ℚ) : MemBlock :=
  { b with num_faults_pending := c }

/-- The block `b`, registered with pending fraction 0, as it stands after `t` armed
fault checks at the given rate: its pending fraction is the fractional part of
`rate * kilobytes * t`. -/
def blockAfter (FaultRate : ℚ) (b : MemBlock) (t : Nat) : MemBlock :=
  withPending b (FaultRate * b.num_kilobytes * t - ⌊FaultRate * b.num_kilobytes * t⌋)

/-- The instruction counter after one more instruction: `++InstructionCount` on a `ULong`. -/
def countInstruction (c : Nat) : Nat := (c + 1) % UWORD_MOD

/-! ## Client requests -/

/-- The host header `valgrind.h` is not part of the repository: `base` stands for
`VG_USERREQ_TOOL_BASE('B','F')` and `isToolRequest v` for `VG_IS_TOOL_USERREQ('B','F', v)`. -/
structure Host where
  base : Nat
  isToolRequest : Nat → Bool

/-- The request codes of `VgBF_ClientRequest_t`, counted up from the tool base. -/
def VG_USERREQ__BITFLIPS_ON (H : Host) : Nat := H.base
def VG_USERREQ__BITFLIPS_OFF (H : Host) : Nat := H.base + 1
def VG_USERREQ__BITFLIPS_MEM_ON (H : Host) : Nat := H.base + 2
def VG_USERREQ__BITFLIPS_MEM_OFF (H : Host) : Nat := H.base + 3

/-- `BF_(handle_client_request)`: the state after the request, the word then held by
`*ret`, and the flag returned (`True` when the request was handled). -/
def handle_client_request (H : Host) (s : State) (tid : Nat) (arg : Nat → Nat) (ret : Nat) :
    State × Nat × Bool :=
  if H.isToolRequest (arg 0 % UWORD_MOD) = false then (s, ret, false)
  else if arg 0 % UWORD_MOD = VG_USERREQ__BITFLIPS_ON H then
    ({ s with FaultInjection := true }, 0, true)
  else if arg 0 % UWORD_MOD = VG_USERREQ__BITFLIPS_OFF H then
    ({ s with FaultInjection := false }, 0, true)
  else if arg 0 % UWORD_MOD = VG_USERREQ__BITFLIPS_MEM_ON H then
    (MemOn s tid arg, 0, true)
  else if arg 0 % UWORD_MOD = VG_USERREQ__BITFLIPS_MEM_OFF H then
    (MemOff s arg, 0, true)
  else (s, ret, false)

/-- The ten element types of `VgBF_MemType_t`. -/
def memTypes : List Nat :=
  [BITFLIPS_CHAR, BITFLIPS_UCHAR, BITFLIPS_SHORT, BITFLIPS_USHORT, BITFLIPS_INT,
    BITFLIPS_UINT, BITFLIPS_LONG, BITFLIPS_ULONG, BITFLIPS_FLOAT, BITFLIPS_DOUBLE]

/-- The two layouts of `VgBF_MemOrder_t`. -/
def memOrders : List Nat := [BITFLIPS_ROW_MAJOR, BITFLIPS_COL_MAJOR]

/-- The address of element `(r, c)` of a block under the layout it declares. -/
def elementAddress (block : MemBlock) (r c : Nat) : Nat :=
  if block.layout = BITFLIPS_ROW_MAJOR then
    block.start + (r * block.num_cols + c) * sizeof block.type
  else
    block.start + (c * block.num_rows + r) * sizeof block.type

/-! ## Choice sequences of the shuffle -/

/-- A block of ten by ten 32-bit integers at address `0x1000`, row major. -/
def exampleRequest : Nat → Nat := fun i =>
  if i = 1 then 0x1000 else if i = 2 then 10 else if i = 3 then 10
  else if i = 5 then BITFLIPS_INT + BITFLIPS_ROW_MAJOR else 0


/-- The engine at rate 1 over the given guest memory, with the example block registered. -/
def registered (memory : Nat → Nat) : State :=
  MemOn { initial memory with FaultRate := 1 } 0 exampleRequest

/-- The engine at rate 1 over a zeroed guest memory, with the example block registered. -/
def exampleState : State := registered fun _ => 0

/-- A block of a thousand bytes at address `0x1000`. -/
def kilobyteRequest : Nat → Nat := fun i =>
  if i = 1 then 0x1000 else if i = 2 then 1000 else if i = 3 then 1
  else if i = 5 then BITFLIPS_UCHAR + BITFLIPS_ROW_MAJOR else 0

/-- The engine at rate `2 ^ 32` with the kilobyte block registered. -/
def overflowState : State :=
  MemOn { initial (fun _ => 0) with FaultRate := 4294967296 } 0 kilobyteRequest

/-- The example engine, disarmed. -/
def disarmedState : State := { exampleState with FaultInjection := false }

/-- The tool base and test of `valgrind.h` for the letters `'B'`, `'F'`. -/
def valgrindHost : Host where
  base := 0x42460000
  isToolRequest := fun v => (v &&& 0xffff0000) == 0x42460000

/-- A request to switch injection off. -/
def offRequest : Nat → Nat := fun i => if i = 0 then 0x42460001 else 0

/-- A block of two rows and three columns of bytes at `0x1000`, with the given layout. -/
def matrixRequest (order : Nat) : Nat → Nat := fun i =>
  if i = 1 then 0x1000 else if i = 2 then 2 else if i = 3 then 3
  else if i = 5 then BITFLIPS_UCHAR + order else 0

/-- The engine at rate `2 * 10 ^ 10` with the example block registered. -/
def floodState : State :=
  MemOn { initial (fun _ => 0) with FaultRate := 20000000000 } 0 exampleRequest

/-- A block of no rows at `0x1000`. -/
def emptyRequest : Nat → Nat := fun i =>
  if i = 1 then 0x1000 else if i = 2 then 0 else if i = 3 then 10
  else if i = 5 then BITFLIPS_INT + BITFLIPS_ROW_MAJOR else 0

/-- The engine at rate 1 with the kilobyte block registered first and the example
block second, so the example block stands at the head. -/
def twoBlockState : State :=
  MemOn (MemOn { initial (fun _ => 0) with FaultRate := 1 } 0 kilobyteRequest) 1 exampleRequest

/-! ## Bit-level lemmas -/

theorem and_one_eq_ite (x : Nat) : x &&& 1 = if x.testBit 0 then 1 else 0 := by
  rw [Nat.and_one_is_mod, Nat.testBit_zero]
  rcases Nat.mod_two_eq_zero_or_one x with h | h <;> simp [h]

theorem shiftRight_and_one (m k : Nat) : (m >>> k) &&& 1 = if m.testBit k then 1 else 0 := by
  rw [and_one_eq_ite, Nat.testBit_shiftRight]; simp

theorem two_pow_mod_word {s : Nat} (hs : s < 64) : 2 ^ s % UWORD_MOD = 2 ^ s :=
  Nat.mod_eq_of_lt (Nat.pow_lt_pow_right (by decide) hs)

theorem exchanged_eq (mask s i : Nat) (hs : s < 64) (hi : i < 64) :
    exchanged mask s i =
      if mask.testBit s = mask.testBit i then mask else mask ^^^ (2 ^ s ||| 2 ^ i) := by
  unfold exchanged
  simp only [shiftRight_and_one]
  by_cases b1 : mask.testBit s = true <;> by_cases b2 : mask.testBit i = true
  · simp [b1, b2]
  · simp only [b1, b2, Bool.not_eq_true] at *
    simp [b2, UCHAR_MOD, Nat.one_shiftLeft, two_pow_mod_word hs, two_pow_mod_word hi]
  · simp only [b1, b2, Bool.not_eq_true] at *
    simp [b1, UCHAR_MOD, Nat.one_shiftLeft, two_pow_mod_word hs, two_pow_mod_word hi]
  · simp only [b1, b2, Bool.not_eq_true] at *
    simp [b1, b2]

theorem exchanged_testBit (mask s i k : Nat) (hs : s < 64) (hi : i < 64) :
    (exchanged mask s i).testBit k = mask.testBit (Equiv.swap s i k) := by
  rw [exchanged_eq mask s i hs hi]
  by_cases hb : mask.testBit s = mask.testBit i
  · rw [if_pos hb]
    by_cases hks : k = s
    · subst hks; rw [Equiv.swap_apply_left]; exact hb
    · by_cases hki : k = i
      · subst hki; rw [Equiv.swap_apply_right]; exact hb.symm
      · rw [Equiv.swap_apply_of_ne_of_ne hks hki]
  · rw [if_neg hb]
    simp only [Nat.testBit_xor, Nat.testBit_or, Nat.testBit_two_pow]
    by_cases hks : k = s
    · subst hks; rw [Equiv.swap_apply_left]
      cases h1 : mask.testBit k <;> cases h2 : mask.testBit i <;> simp_all
    · by_cases hki : k = i
      · subst hki; rw [Equiv.swap_apply_right]
        cases h1 : mask.testBit s <;> cases h2 : mask.testBit k <;> simp_all
      · rw [Equiv.swap_apply_of_ne_of_ne hks hki]
        have hsk : s ≠ k := fun h => hks h.symm
        have hik : i ≠ k := fun h => hki h.symm
        simp [hsk, hik]

theorem swap_lt_iff {s i k : Nat} (hs : s < 64) (hi : i < 64) :
    Equiv.swap s i k < 64 ↔ k < 64 := by
  by_cases hks : k = s
  · subst hks; rw [Equiv.swap_apply_left]; exact ⟨fun _ => hs, fun _ => hi⟩
  · by_cases hki : k = i
    · subst hki; rw [Equiv.swap_apply_right]; exact ⟨fun _ => hi, fun _ => hs⟩
    · rw [Equiv.swap_apply_of_ne_of_ne hks hki]

theorem popcount_exchanged (mask s i : Nat) (hs : s < 64) (hi : i < 64) :
    popcount (exchanged mask s i) = popcount mask := by
  unfold popcount
  have himg : (Finset.range 64).filter (fun k => (exchanged mask s i).testBit k = true)
      = ((Finset.range 64).filter (fun k => mask.testBit k = true)).image (Equiv.swap s i) := by
    ext k
    simp only [Finset.mem_filter, Finset.mem_range, Finset.mem_image]
    rw [exchanged_testBit mask s i k hs hi]
    constructor
    · rintro ⟨hk, hb⟩
      exact ⟨Equiv.swap s i k, ⟨(swap_lt_iff hs hi).2 hk, hb⟩, Equiv.swap_apply_self s i k⟩
    · rintro ⟨a, ⟨ha, hb⟩, rfl⟩
      refine ⟨(swap_lt_iff hs hi).2 ha, ?_⟩
      rw [Equiv.swap_apply_self]; exact hb
  rw [himg, Finset.card_image_of_injective _ (Equiv.swap s i).injective]

theorem exchanged_testBit_above (mask s i k : Nat) (hs : s ≤ i) (hi : i < 64) (hk : i < k) :
    (exchanged mask s i).testBit k = mask.testBit k := by
  rw [exchanged_testBit mask s i k (by omega) hi,
    Equiv.swap_apply_of_ne_of_ne (by omega) (by omega)]

theorem getFlipMask_step_eq (R : Random) (i mask seed : Nat) (hi : i < 64) :
    getFlipMask_step R i mask seed =
      some (exchanged mask ((R.value seed % UINT_MOD) % (i + 1)) i, R.next seed) := by
  have hlt : (R.value seed % UINT_MOD) % (i + 1) < i + 1 := Nat.mod_lt _ (Nat.succ_pos i)
  have h256 : ((R.value seed % UINT_MOD) % (i + 1)) % UCHAR_MOD
      = (R.value seed % UINT_MOD) % (i + 1) :=
    Nat.mod_eq_of_lt (by unfold UCHAR_MOD; omega)
  have h64 : (R.value seed % UINT_MOD) % (i + 1) < 64 := by omega
  simp [getFlipMask_step, umod, shrUL, shlUL, h256, h64, hi, exchanged]

theorem getFlipMask_loop_spec (R : Random) (i : Nat) (hi : i < 64) (mask seed : Nat) :
    ∃ m seed', getFlipMask_loop R i mask seed = some (m, seed') ∧
      popcount m = popcount mask ∧ ∀ k, i < k → m.testBit k = mask.testBit k := by
  induction i generalizing mask seed with
  | zero => exact ⟨mask, seed, rfl, rfl, fun _ _ => rfl⟩
  | succ n ih =>
    have hs : (R.value seed % UINT_MOD) % (n + 1 + 1) ≤ n + 1 :=
      Nat.lt_succ_iff.mp (Nat.mod_lt _ (Nat.succ_pos _))
    obtain ⟨m, seed', hrun, hpop, hbits⟩ :=
      ih (by omega) (exchanged mask ((R.value seed % UINT_MOD) % (n + 1 + 1)) (n + 1)) (R.next seed)
    refine ⟨m, seed', ?_, ?_, ?_⟩
    · simp [getFlipMask_loop, getFlipMask_step_eq R (n + 1) mask seed hi, hrun]
    · rw [hpop, popcount_exchanged _ _ _ (by omega) hi]
    · intro k hk
      rw [hbits k (by omega), exchanged_testBit_above _ _ _ _ hs hi hk]

theorem initial_mask_eq (flips : Nat) (hf : flips < 64) :
    shlUL (notUL 0) flips = some (UWORD_MOD - 2 ^ flips) ∧
      notUL (UWORD_MOD - 2 ^ flips) = 2 ^ flips - 1 := by
  unfold shlUL notUL UWORD_MOD
  rw [if_pos hf]
  interval_cases flips <;> exact ⟨rfl, rfl⟩

theorem popcount_low_ones (flips : Nat) (hf : flips ≤ 64) : popcount (2 ^ flips - 1) = flips := by
  unfold popcount
  have : (Finset.range 64).filter (fun k => (2 ^ flips - 1).testBit k = true) = Finset.range flips := by
    ext k
    simp only [Finset.mem_filter, Finset.mem_range, Nat.testBit_two_pow_sub_one, decide_eq_true_eq]
    omega
  rw [this, Finset.card_range]

theorem popcount_two_pow (k : Nat) (hk : k < 64) : popcount (2 ^ k) = 1 := by
  unfold popcount
  have : (Finset.range 64).filter (fun j => (2 ^ k).testBit j = true) = {k} := by
    ext j
    simp only [Finset.mem_filter, Finset.mem_range, Nat.testBit_two_pow, decide_eq_true_eq,
      Finset.mem_singleton]
    omega
  rw [this, Finset.card_singleton]

/-- The value `BF_(getFlipMask)` returns whenever the initial shift is defined: a word
below `2 ^ width` with exactly `flips` set bits. -/
theorem getFlipMask_spec (R : Random) (seed width flips : Nat)
    (hw : 1 ≤ width) (hw64 : width ≤ 64) (hfw : flips ≤ width) (hf64 : flips < 64) :
    ∃ m seed', getFlipMask R seed width flips = some (m, seed') ∧
      popcount m = flips ∧ m < 2 ^ width := by
  unfold getFlipMask
  by_cases h1 : flips = 1
  · subst h1
    have hk : (R.value seed % UINT_MOD) % width < width := Nat.mod_lt _ (by omega)
    have hk64 : (R.value seed % UINT_MOD) % width < 64 := by omega
    refine ⟨2 ^ ((R.value seed % UINT_MOD) % width), R.next seed, ?_, popcount_two_pow _ hk64,
      Nat.pow_lt_pow_right (by decide) hk⟩
    have hw0 : width ≠ 0 := by omega
    simp [umod, shlUL, hw0, hk64, Nat.one_shiftLeft, two_pow_mod_word hk64]
  · rw [if_neg h1]
    obtain ⟨hsh, hnot⟩ := initial_mask_eq flips hf64
    have hi : ((width + UINT_MOD - 1) % UINT_MOD) % UCHAR_MOD = width - 1 := by
      unfold UINT_MOD UCHAR_MOD; omega
    obtain ⟨m, seed', hrun, hpop, hbits⟩ :=
      getFlipMask_loop_spec R (width - 1) (by omega) (2 ^ flips - 1) seed
    refine ⟨m, seed', ?_, ?_, ?_⟩
    · simp [hsh, hnot, hi, hrun]
    · rw [hpop, popcount_low_ones flips (by omega)]
    · apply Nat.lt_pow_two_of_testBit
      intro k hk
      rw [hbits k (by omega), Nat.testBit_two_pow_sub_one]
      simp; omega

theorem getFlipSize_scan_bounds : ∀ r, r < 100 →
    1 ≤ getFlipSize_scan r BitFlipDensity ∧ getFlipSize_scan r BitFlipDensity ≤ 7 := by
  decide

theorem getFlipSize_bounds (R : Random) (seed : Nat) :
    1 ≤ (getFlipSize R seed).1 ∧ (getFlipSize R seed).1 ≤ 7 :=
  getFlipSize_scan_bounds _ (Nat.mod_lt _ (by decide))

/-! ## Guest memory lemmas -/

theorem load_lt (mem : Nat → Nat) (addr n : Nat) : load mem addr n < 256 ^ n := by
  induction n generalizing addr with
  | zero => simp [load]
  | succ k ih =>
    have h1 : mem addr % 256 < 256 := Nat.mod_lt _ (by decide)
    have h2 := ih (addr + 1)
    simp only [load, pow_succ]
    omega

theorem load_store_part (mem : Nat → Nat) (addr n v : Nat) :
    ∀ k j, j + k ≤ n → load (store mem addr n v) (addr + j) k = (v / 256 ^ j) % 256 ^ k := by
  intro k
  induction k with
  | zero => intro j _; simp [load, Nat.mod_one]
  | succ k ih =>
    intro j hj
    have hin : addr ≤ addr + j ∧ addr + j < addr + n := ⟨by omega, by omega⟩
    have hstep := ih (j + 1) (by omega)
    rw [← Nat.add_assoc] at hstep
    simp only [load, hstep]
    simp only [store, hin, and_self, if_true, Nat.add_sub_cancel_left, Nat.mod_mod]
    rw [pow_succ 256 k, Nat.mul_comm (256 ^ k) 256, Nat.mod_mul, pow_succ, Nat.div_div_eq_div_mul]

theorem load_store (mem : Nat → Nat) (addr n v : Nat) :
    load (store mem addr n v) addr n = v % 256 ^ n := by
  have h := load_store_part mem addr n v n 0 (by omega)
  simpa using h

theorem store_outside (mem : Nat → Nat) (addr n v a : Nat) (h : a < addr ∨ addr + n ≤ a) :
    store mem addr n v a = mem a := by
  unfold store
  rw [if_neg (by omega)]

theorem two_pow_eight_mul (n : Nat) : 2 ^ (8 * n) = 256 ^ n := by
  rw [pow_mul]; norm_num

theorem popcount_xor_xor (o m : Nat) : popcount (o ^^^ (o ^^^ m)) = popcount m := by
  rw [← Nat.xor_assoc, Nat.xor_self, Nat.zero_xor]

/-! ## Flip event lemmas -/

/-- What one branch of `BF_(doFlipBits)` does to an element of 1, 2, 4 or 8 bytes. -/
theorem doFlipBits_branch_spec (R : Random) (s : State) (addr bytes : Nat)
    (hb : bytes = 1 ∨ bytes = 2 ∨ bytes = 4 ∨ bytes = 8) :
    ∃ mask seed',
      getFlipMask R (getFlipSize R s.Seed).2 (8 * bytes) (getFlipSize R s.Seed).1
        = some (mask, seed') ∧
      popcount mask = (getFlipSize R s.Seed).1 ∧ mask < 2 ^ (8 * bytes) ∧
      doFlipBits_branch R s addr bytes = some
        { s with
          Seed := seed'
          memory := store s.memory addr bytes (load s.memory addr bytes ^^^ mask)
          FaultCount := (s.FaultCount + 1) % UINT_MOD } := by
  obtain ⟨hf1, hf7⟩ := getFlipSize_bounds R s.Seed
  obtain ⟨mask, seed', hrun, hpop, hlt⟩ :=
    getFlipMask_spec R (getFlipSize R s.Seed).2 (8 * bytes) (getFlipSize R s.Seed).1
      (by omega) (by omega) (by omega) (by omega)
  refine ⟨mask, seed', hrun, hpop, hlt, ?_⟩
  have hload : load s.memory addr bytes < 2 ^ (8 * bytes) := by
    rw [two_pow_eight_mul]; exact load_lt _ _ _
  have hx : load s.memory addr bytes ^^^ mask < 2 ^ (8 * bytes) := Nat.xor_lt_two_pow hload hlt
  simp only [doFlipBits_branch, hrun, Option.map_some', Nat.mod_eq_of_lt hlt, Nat.mod_eq_of_lt hx]


/-! ## Fault check lemmas -/

theorem sizeof_cases (type : Nat) :
    sizeof type = 0 ∨ sizeof type = 1 ∨ sizeof type = 2 ∨ sizeof type = 4 ∨ sizeof type = 8 := by
  unfold sizeof
  split_ifs <;> simp

theorem getRow_defined (block : MemBlock) (addr : Nat)
    (hsz : sizeof block.type ≠ 0) (hc : block.num_cols ≠ 0) :
    ∃ r, MemBlock_getRow block addr = some r := by
  unfold MemBlock_getRow udiv umod
  by_cases hl : block.layout = BITFLIPS_ROW_MAJOR <;> simp [hsz, hc, hl]

theorem getCol_defined (block : MemBlock) (addr : Nat)
    (hsz : sizeof block.type ≠ 0) (hr : block.num_rows ≠ 0) :
    ∃ c, MemBlock_getCol block addr = some c := by
  unfold MemBlock_getCol udiv umod
  by_cases hl : block.layout = BITFLIPS_COL_MAJOR <;> simp [hsz, hr, hl]

/-- A flip event on a block whose type, rows and columns are not zero. -/
theorem doFlipBits_spec (R : Random) (s : State) (addr : Nat) (block : MemBlock)
    (hsz : sizeof block.type ≠ 0) (hr : block.num_rows ≠ 0) (hc : block.num_cols ≠ 0) :
    ∃ seed' mem', doFlipBits R s addr (sizeof block.type) block = some
      { s with Seed := seed', memory := mem', FaultCount := (s.FaultCount + 1) % UINT_MOD } := by
  obtain ⟨r, hrow⟩ := getRow_defined block addr hsz hc
  obtain ⟨c, hcol⟩ := getCol_defined block addr hsz hr
  have hcases := sizeof_cases block.type
  have hb : sizeof block.type = 1 ∨ sizeof block.type = 2 ∨ sizeof block.type = 4 ∨
      sizeof block.type = 8 := by tauto
  obtain ⟨mask, seed', _, _, _, hrun⟩ := doFlipBits_branch_spec R s addr (sizeof block.type) hb
  refine ⟨seed', store s.memory addr (sizeof block.type)
    (load s.memory addr (sizeof block.type) ^^^ mask), ?_⟩
  rw [← hrun]
  unfold doFlipBits
  rw [hrow, hcol]
  rcases hb with h | h | h | h <;> simp [h]

/-- A flip event, when it is defined, leaves every global but the seed, the memory
and the fault counter as it was. -/
theorem doFlipBits_frame (R : Random) (s s' : State) (addr size : Nat) (block : MemBlock)
    (h : doFlipBits R s addr size block = some s') :
    ∃ seed' mem' fc', s' = { s with Seed := seed', memory := mem', FaultCount := fc' } := by
  unfold doFlipBits at h
  cases hrow : MemBlock_getRow block addr with
  | none => simp [hrow] at h
  | some r =>
    cases hcol : MemBlock_getCol block addr with
    | none => simp [hrow, hcol] at h
    | some c =>
      simp only [hrow, hcol, Option.some_bind] at h
      have hbranch : ∀ bytes, doFlipBits_branch R s addr bytes = some s' →
          ∃ seed' mem' fc', s' = { s with Seed := seed', memory := mem', FaultCount := fc' } := by
        intro bytes hbr
        unfold doFlipBits_branch at hbr
        cases hm : getFlipMask R (getFlipSize R s.Seed).2 (8 * bytes) (getFlipSize R s.Seed).1 with
        | none => simp [hm] at hbr
        | some ms =>
          simp only [hm, Option.map_some', Option.some.injEq] at hbr
          exact ⟨_, _, _, hbr.symm⟩
      split_ifs at h
      · exact hbranch 1 h
      · exact hbranch 2 h
      · exact hbranch 4 h
      · exact hbranch 8 h
      · simp only [Option.some.injEq] at h
        exact ⟨s.Seed, s.memory, s.FaultCount, h.symm⟩

theorem bump_iterate (w c : Nat) :
    bump^[w] c = if w = 0 then c else (c + w) % UINT_MOD := by
  induction w generalizing c with
  | zero => simp
  | succ n ih =>
    rw [Function.iterate_succ_apply, ih]
    by_cases hn : n = 0
    · subst hn; simp [bump]
    · simp only [hn, if_false, Nat.succ_ne_zero, bump]
      rw [Nat.mod_add_mod]
      congr 1
      omega

theorem bump_iterate_of_lt (w c : Nat) (hc : c < UINT_MOD) :
    bump^[w] c = (c + w) % UINT_MOD := by
  rw [bump_iterate]
  by_cases hw : w = 0
  · subst hw; simp [Nat.mod_eq_of_lt hc]
  · simp [hw]

/-- The inner loop dispatches `w` flip events, each counted once. -/
theorem doFaultCheck_flips_spec (R : Random) (block : MemBlock)
    (hel : block.num_elems % UINT_MOD ≠ 0) (hsz : sizeof block.type ≠ 0)
    (hr : block.num_rows ≠ 0) (hc : block.num_cols ≠ 0) (w : Nat) (s : State) :
    ∃ seed' mem', doFaultCheck_flips R block w s = some
      { s with Seed := seed', memory := mem', FaultCount := bump^[w] s.FaultCount } := by
  induction w generalizing s with
  | zero => exact ⟨s.Seed, s.memory, rfl⟩
  | succ n ih =>
    obtain ⟨seed1, mem1, hflip⟩ := doFlipBits_spec R { s with Seed := R.next s.Seed }
      ((block.start + ((R.value s.Seed % UINT_MOD) % (block.num_elems % UINT_MOD) *
        sizeof block.type) % UINT_MOD) % UWORD_MOD) block hsz hr hc
    obtain ⟨seed2, mem2, hrest⟩ := ih
      { s with Seed := seed1, memory := mem1, FaultCount := (s.FaultCount + 1) % UINT_MOD }
    refine ⟨seed2, mem2, ?_⟩
    simp only [doFaultCheck_flips, randomInt, umod, hel, if_false, Option.map_some',
      Option.some_bind]
    rw [hflip]
    simp only [Option.some_bind]
    rw [hrest, Function.iterate_succ_apply]
    rfl

/-- The inner loop, when it is defined, changes only the seed, the memory and the
fault counter. -/
theorem doFaultCheck_flips_frame (R : Random) (block : MemBlock) (w : Nat) (s s' : State)
    (h : doFaultCheck_flips R block w s = some s') :
    ∃ seed' mem' fc', s' = { s with Seed := seed', memory := mem', FaultCount := fc' } := by
  induction w generalizing s with
  | zero =>
    simp only [doFaultCheck_flips, Option.some.injEq] at h
    exact ⟨s.Seed, s.memory, s.FaultCount, h.symm⟩
  | succ n ih =>
    simp only [doFaultCheck_flips] at h
    cases hri : randomInt R s.Seed (block.num_elems % UINT_MOD) with
    | none => simp [hri] at h
    | some p =>
      simp only [hri, Option.some_bind] at h
      cases hfl : doFlipBits R { s with Seed := p.2 }
          ((block.start + (p.1 * sizeof block.type) % UINT_MOD) % UWORD_MOD)
          (sizeof block.type) block with
      | none => simp [hfl] at h
      | some s1 =>
        simp only [hfl, Option.some_bind] at h
        obtain ⟨sd1, m1, f1, h1⟩ := doFlipBits_frame R _ _ _ _ _ hfl
        obtain ⟨sd2, m2, f2, h2⟩ := ih s1 h
        exact ⟨sd2, m2, f2, by rw [h2, h1]⟩

theorem toUInt_of_range (x : ℚ) (h1 : -1 < x) (h2 : x < (UINT_MOD : ℚ)) :
    toUInt x = some (Int.toNat ⌊x⌋) := by
  unfold toUInt
  rw [if_pos ⟨h1, h2⟩]

theorem toUInt_eq_some (x : ℚ) (w : Nat) (h : toUInt x = some w) :
    -1 < x ∧ x < (UINT_MOD : ℚ) ∧ w = Int.toNat ⌊x⌋ := by
  unfold toUInt at h
  split_ifs at h with hx
  simp only [Option.some.injEq] at h
  exact ⟨hx.1, hx.2, h.symm⟩

/-- The block loop on blocks for which the check is defined: every block advances,
the flips of all blocks are counted, the kilobytes of all blocks are added to the flux. -/
theorem doFaultCheck_blocks_spec (R : Random) (bs : List MemBlock) (s : State)
    (h : ∀ b ∈ bs, TickReady s.FaultRate b) :
    ∃ seed' mem', doFaultCheck_blocks R s bs = some
      ({ s with
          Seed := seed'
          memory := mem'
          FaultCount :=
            bump^[(bs.map fun b => Int.toNat ⌊total_faults s.FaultRate b⌋).sum] s.FaultCount
          KilobyteFlux := s.KilobyteFlux + (bs.map fun b => b.num_kilobytes).sum },
        bs.map (advance s.FaultRate)) := by
  induction bs generalizing s with
  | nil => exact ⟨s.Seed, s.memory, by simp [doFaultCheck_blocks]⟩
  | cons b rest ih =>
    obtain ⟨hlo, hhi, hready⟩ := h b (List.mem_cons_self b rest)
    have hw : whole_faults s.FaultRate b = some (Int.toNat ⌊total_faults s.FaultRate b⌋) :=
      toUInt_of_range _ hlo hhi
    have hflips : ∃ seed1 mem1, doFaultCheck_flips R (advance s.FaultRate b)
        (Int.toNat ⌊total_faults s.FaultRate b⌋)
        { s with KilobyteFlux := s.KilobyteFlux + b.num_kilobytes } = some
        { s with
          KilobyteFlux := s.KilobyteFlux + b.num_kilobytes
          Seed := seed1
          memory := mem1
          FaultCount := bump^[Int.toNat ⌊total_faults s.FaultRate b⌋] s.FaultCount } := by
      by_cases hz : Int.toNat ⌊total_faults s.FaultRate b⌋ = 0
      · rw [hz]; exact ⟨s.Seed, s.memory, rfl⟩
      · obtain ⟨h1, h2, h3, h4⟩ := hready hz
        exact doFaultCheck_flips_spec R (advance s.FaultRate b) h1 h2 h3 h4 _ _
    obtain ⟨seed1, mem1, hrun1⟩ := hflips
    obtain ⟨seed2, mem2, hrun2⟩ := ih
      { s with
        KilobyteFlux := s.KilobyteFlux + b.num_kilobytes
        Seed := seed1
        memory := mem1
        FaultCount := bump^[Int.toNat ⌊total_faults s.FaultRate b⌋] s.FaultCount }
      (fun b' hb' => h b' (List.mem_cons_of_mem b hb'))
    refine ⟨seed2, mem2, ?_⟩
    simp only [doFaultCheck_blocks, hw, Option.some_bind]
    have hadv : ({ b with
        num_faults_pending :=
          (total_faults s.FaultRate b - ((Int.toNat ⌊total_faults s.FaultRate b⌋ : Nat) : ℚ)) }
          : MemBlock) = advance s.FaultRate b := rfl
    rw [hadv, hrun1]
    simp only [Option.some_bind]
    rw [hrun2]
    simp only [Option.map_some', List.map_cons, List.sum_cons, Option.some.injEq, Prod.mk.injEq,
      and_true]
    rw [Nat.add_comm, Function.iterate_add_apply, add_assoc]

/-- The block loop, whenever it is defined, advances every block, keeps the rate, and
the conversion to `UInt` was defined for every block. -/
theorem doFaultCheck_blocks_of_some (R : Random) (bs : List MemBlock) (s s' : State)
    (bs' : List MemBlock) (h : doFaultCheck_blocks R s bs = some (s', bs')) :
    bs' = bs.map (advance s.FaultRate) ∧ s'.FaultRate = s.FaultRate ∧
      s'.FaultInjection = s.FaultInjection ∧ s'.InstructionCount = s.InstructionCount ∧
      ∀ b ∈ bs, -1 < total_faults s.FaultRate b ∧ total_faults s.FaultRate b < (UINT_MOD : ℚ) := by
  induction bs generalizing s s' bs' with
  | nil =>
    simp only [doFaultCheck_blocks, Option.some.injEq, Prod.mk.injEq] at h
    obtain ⟨h1, h2⟩ := h
    subst h1; subst h2
    simp
  | cons b rest ih =>
    simp only [doFaultCheck_blocks] at h
    cases hw : whole_faults s.FaultRate b with
    | none => simp [hw] at h
    | some w =>
      obtain ⟨hlo, hhi, hweq⟩ := toUInt_eq_some _ _ hw
      simp only [hw, Option.some_bind] at h
      cases hfl : doFaultCheck_flips R
          { b with num_faults_pending := total_faults s.FaultRate b - (w : ℚ) } w
          { s with KilobyteFlux := s.KilobyteFlux + b.num_kilobytes } with
      | none => simp [hfl] at h
      | some s2 =>
        simp only [hfl, Option.some_bind] at h
        obtain ⟨sd, m, f, hs2⟩ := doFaultCheck_flips_frame R _ _ _ _ hfl
        cases hrest : doFaultCheck_blocks R s2 rest with
        | none => simp [hrest] at h
        | some r =>
          obtain ⟨r1, r2⟩ := r
          simp only [hrest, Option.map_some', Option.some.injEq, Prod.mk.injEq] at h
          obtain ⟨h1, h2⟩ := h
          obtain ⟨e1, e2, e3, e4, e5⟩ := ih s2 r1 r2 hrest
          have hrate : s2.FaultRate = s.FaultRate := by rw [hs2]
          have hinj : s2.FaultInjection = s.FaultInjection := by rw [hs2]
          have hic : s2.InstructionCount = s.InstructionCount := by rw [hs2]
          rw [hrate] at e1 e2 e5
          rw [hinj] at e3
          rw [hic] at e4
          subst h1
          refine ⟨?_, e2, e3, e4, ?_⟩
          · rw [← h2, e1, hweq]; rfl
          · intro b' hb'
            rcases List.mem_cons.mp hb' with hb' | hb'
            · subst hb'; exact ⟨hlo, hhi⟩
            · exact e5 b' hb'

theorem doFaultCheck_armed_eq (R : Random) (s : State) (harmed : s.FaultInjection = true) :
    doFaultCheck R s =
      (doFaultCheck_blocks R { s with InstructionCount := (s.InstructionCount + 1) % UWORD_MOD }
        s.MemBlockHead).map fun r => { r.1 with MemBlockHead := r.2 } := by
  unfold doFaultCheck
  exact if_pos harmed

/-- An armed fault check on blocks for which it is defined. -/
theorem doFaultCheck_armed_spec (R : Random) (s : State) (harmed : s.FaultInjection = true)
    (h : ∀ b ∈ s.MemBlockHead, TickReady s.FaultRate b) :
    ∃ seed' mem', doFaultCheck R s = some
      { s with
        InstructionCount := (s.InstructionCount + 1) % UWORD_MOD
        Seed := seed'
        memory := mem'
        FaultCount :=
          bump^[(s.MemBlockHead.map fun b => Int.toNat ⌊total_faults s.FaultRate b⌋).sum]
            s.FaultCount
        KilobyteFlux := s.KilobyteFlux + (s.MemBlockHead.map fun b => b.num_kilobytes).sum
        MemBlockHead := s.MemBlockHead.map (advance s.FaultRate) } := by
  obtain ⟨seed', mem', hrun⟩ := doFaultCheck_blocks_spec R s.MemBlockHead
    { s with InstructionCount := (s.InstructionCount + 1) % UWORD_MOD } h
  refine ⟨seed', mem', ?_⟩
  rw [doFaultCheck_armed_eq R s harmed, hrun]
  rfl

/-- An armed fault check, whenever it is defined. -/
theorem doFaultCheck_armed_of_some (R : Random) (s s' : State)
    (harmed : s.FaultInjection = true) (h : doFaultCheck R s = some s') :
    s'.MemBlockHead = s.MemBlockHead.map (advance s.FaultRate) ∧ s'.FaultRate = s.FaultRate ∧
      s'.FaultInjection = s.FaultInjection ∧
      s'.InstructionCount = (s.InstructionCount + 1) % UWORD_MOD ∧
      ∀ b ∈ s.MemBlockHead,
        -1 < total_faults s.FaultRate b ∧ total_faults s.FaultRate b < (UINT_MOD : ℚ) := by
  rw [doFaultCheck_armed_eq R s harmed] at h
  cases hb : doFaultCheck_blocks R
      { s with InstructionCount := (s.InstructionCount + 1) % UWORD_MOD } s.MemBlockHead with
  | none => simp [hb] at h
  | some r =>
    obtain ⟨r1, r2⟩ := r
    simp only [hb, Option.map_some', Option.some.injEq] at h
    obtain ⟨e1, e2, e3, e4, e5⟩ := doFaultCheck_blocks_of_some R _ _ _ _ hb
    subst h
    exact ⟨e1, e2, e3, e4, e5⟩

/-- A disarmed fault check only counts the instruction. -/
theorem doFaultCheck_disarmed (R : Random) (s : State) (hoff : s.FaultInjection = false) :
    doFaultCheck R s = some
      { s with InstructionCount := (s.InstructionCount + 1) % UWORD_MOD } := by
  unfold doFaultCheck
  simp [hoff]

theorem advance_pending (rate : ℚ) (b : MemBlock) (h : 0 ≤ total_faults rate b) :
    (advance rate b).num_faults_pending = Int.fract (total_faults rate b) := by
  have hfl : (0 : ℤ) ≤ ⌊total_faults rate b⌋ := Int.floor_nonneg.mpr h
  show total_faults rate b - ((Int.toNat ⌊total_faults rate b⌋ : Nat) : ℚ) = _
  have hcast : ((Int.toNat ⌊total_faults rate b⌋ : Nat) : ℚ) = ((⌊total_faults rate b⌋ : ℤ) : ℚ) := by
    rw [← Int.cast_natCast, Int.toNat_of_nonneg hfl]
  rw [hcast]
  rfl

theorem total_faults_nonneg (rate : ℚ) (b : MemBlock) (hrate : 0 ≤ rate)
    (hkb : 0 ≤ b.num_kilobytes) (hc : 0 ≤ b.num_faults_pending) : 0 ≤ total_faults rate b := by
  unfold total_faults
  positivity

theorem advance_carry (rate : ℚ) (b : MemBlock) (hrate : 0 ≤ rate)
    (hkb : 0 ≤ b.num_kilobytes) (hc : 0 ≤ b.num_faults_pending) :
    CarryInRange (advance rate b) := by
  unfold CarryInRange
  rw [advance_pending rate b (total_faults_nonneg rate b hrate hkb hc)]
  exact ⟨Int.fract_nonneg _, Int.fract_lt_one _⟩

theorem advance_kilobytes (rate : ℚ) (b : MemBlock) :
    (advance rate b).num_kilobytes = b.num_kilobytes := rfl

theorem wellFormed_kilobytes_nonneg (b : MemBlock) (h : WellFormed b) : 0 ≤ b.num_kilobytes := by
  rw [h.2.2.1]
  positivity

/-- On a well-formed block with a pending fraction in `[0, 1)`, a non-negative rate and
a total below `2 ^ 32`, the fault check is defined. -/
theorem tickReady_of_wellFormed (rate : ℚ) (b : MemBlock) (hrate : 0 ≤ rate)
    (hwf : WellFormed b) (hc : CarryInRange b) (hlt : total_faults rate b < (UINT_MOD : ℚ)) :
    TickReady rate b := by
  obtain ⟨hel, hby, hkb, hdraw⟩ := hwf
  have hkb0 : 0 ≤ b.num_kilobytes := by rw [hkb]; positivity
  have htot : 0 ≤ total_faults rate b := total_faults_nonneg rate b hrate hkb0 hc.1
  refine ⟨by linarith, hlt, ?_⟩
  intro hw
  have hbytes : b.num_bytes ≠ 0 := by
    intro hz
    apply hw
    have hk : b.num_kilobytes = 0 := by rw [hkb, hz]; simp
    have ht : total_faults rate b = b.num_faults_pending := by
      unfold total_faults; rw [hk]; simp
    rw [ht, Int.toNat_eq_zero]
    have : ⌊b.num_faults_pending⌋ = 0 := Int.floor_eq_zero_iff.mpr ⟨hc.1, hc.2⟩
    omega
  have hsz : sizeof b.type ≠ 0 := by
    intro hz; apply hbytes; rw [hby, hz]; simp
  have hne : b.num_elems ≠ 0 := by
    intro hz; apply hbytes; rw [hby, hz]; simp
  refine ⟨hdraw hbytes, hsz, ?_, ?_⟩
  · intro hz; apply hne; rw [hel, hz]; simp
  · intro hz; apply hne; rw [hel, hz]; simp

/-- The invariant carried from tick to tick: armed, rate not negative, every block
with non-negative kilobytes and a pending fraction in `[0, 1)`. -/
theorem doFaultCheck_preserves (R : Random) (s s' : State) (harmed : s.FaultInjection = true)
    (hrate : 0 ≤ s.FaultRate)
    (hblocks : ∀ b ∈ s.MemBlockHead, 0 ≤ b.num_kilobytes ∧ CarryInRange b)
    (h : doFaultCheck R s = some s') :
    s'.FaultInjection = true ∧ 0 ≤ s'.FaultRate ∧
      ∀ b ∈ s'.MemBlockHead, 0 ≤ b.num_kilobytes ∧ CarryInRange b := by
  obtain ⟨e1, e2, e3, _, _⟩ := doFaultCheck_armed_of_some R s s' harmed h
  refine ⟨by rw [e3, harmed], by rw [e2]; exact hrate, ?_⟩
  intro b' hb'
  rw [e1, List.mem_map] at hb'
  obtain ⟨b, hb, rfl⟩ := hb'
  obtain ⟨hkb, hc⟩ := hblocks b hb
  exact ⟨hkb, advance_carry s.FaultRate b hrate hkb hc.1⟩

theorem ticks_preserves (R : Random) (n : Nat) (s s' : State) (harmed : s.FaultInjection = true)
    (hrate : 0 ≤ s.FaultRate)
    (hblocks : ∀ b ∈ s.MemBlockHead, 0 ≤ b.num_kilobytes ∧ CarryInRange b)
    (h : ticks R n s = some s') :
    ∀ b ∈ s'.MemBlockHead, 0 ≤ b.num_kilobytes ∧ CarryInRange b := by
  induction n generalizing s with
  | zero =>
    simp only [ticks, Option.some.injEq] at h
    subst h; exact hblocks
  | succ k ih =>
    simp only [ticks] at h
    cases h1 : doFaultCheck R s with
    | none => simp [h1] at h
    | some s1 =>
      simp only [h1, Option.some_bind] at h
      obtain ⟨a1, a2, a3⟩ := doFaultCheck_preserves R s s1 harmed hrate hblocks h1
      exact ih s1 a1 a2 a3 h

theorem MemOn_block_wellFormed_fields (tid : Nat) (arg : Nat → Nat) :
    (MemOn_block tid arg).num_elems =
        ((MemOn_block tid arg).num_rows * (MemOn_block tid arg).num_cols) % UWORD_MOD ∧
      (MemOn_block tid arg).num_bytes =
        ((MemOn_block tid arg).num_elems * sizeof (MemOn_block tid arg).type) % UWORD_MOD ∧
      (MemOn_block tid arg).num_kilobytes = ((MemOn_block tid arg).num_bytes : ℚ) / 1000 ∧
      (MemOn_block tid arg).num_faults_pending = 0 :=
  ⟨rfl, rfl, rfl, rfl⟩


/-! ## Consecutive fault checks -/

theorem blockAfter_kilobytes (rate : ℚ) (b : MemBlock) (t : Nat) :
    (blockAfter rate b t).num_kilobytes = b.num_kilobytes := rfl

theorem blockAfter_pending (rate : ℚ) (b : MemBlock) (t : Nat) :
    (blockAfter rate b t).num_faults_pending = Int.fract (rate * b.num_kilobytes * t) := rfl

theorem blockAfter_zero (rate : ℚ) (b : MemBlock) (h0 : b.num_faults_pending = 0) :
    blockAfter rate b 0 = b := by
  cases b
  simp only [blockAfter, withPending] at *
  simp [h0]

theorem total_faults_blockAfter (rate : ℚ) (b : MemBlock) (t : Nat) :
    total_faults rate (blockAfter rate b t) =
      rate * b.num_kilobytes * ((t + 1 : Nat) : ℚ) - ((⌊rate * b.num_kilobytes * t⌋ : ℤ) : ℚ) := by
  show rate * b.num_kilobytes + (rate * b.num_kilobytes * t - ⌊rate * b.num_kilobytes * t⌋) = _
  push_cast
  ring

theorem floor_total_faults_blockAfter (rate : ℚ) (b : MemBlock) (t : Nat) :
    ⌊total_faults rate (blockAfter rate b t)⌋ =
      ⌊rate * b.num_kilobytes * ((t + 1 : Nat) : ℚ)⌋ - ⌊rate * b.num_kilobytes * t⌋ := by
  rw [total_faults_blockAfter, Int.floor_sub_int]

theorem total_faults_blockAfter_nonneg (rate : ℚ) (b : MemBlock) (t : Nat)
    (hx : 0 ≤ rate * b.num_kilobytes) : 0 ≤ total_faults rate (blockAfter rate b t) := by
  show 0 ≤ rate * b.num_kilobytes + Int.fract (rate * b.num_kilobytes * t)
  have := Int.fract_nonneg (rate * b.num_kilobytes * t)
  linarith

theorem advance_blockAfter (rate : ℚ) (b : MemBlock) (t : Nat)
    (hx : 0 ≤ rate * b.num_kilobytes) :
    advance rate (blockAfter rate b t) = blockAfter rate b (t + 1) := by
  have hp := advance_pending rate (blockAfter rate b t) (total_faults_blockAfter_nonneg rate b t hx)
  have hfr : Int.fract (total_faults rate (blockAfter rate b t))
      = Int.fract (rate * b.num_kilobytes * ((t + 1 : Nat) : ℚ)) := by
    rw [total_faults_blockAfter, Int.fract_sub_int]
  rw [hfr] at hp
  have hshape : advance rate (blockAfter rate b t)
      = withPending b (advance rate (blockAfter rate b t)).num_faults_pending := rfl
  rw [hshape, hp]
  rfl

theorem iterate_advance (rate : ℚ) (b : MemBlock) (t : Nat)
    (hx : 0 ≤ rate * b.num_kilobytes) (h0 : b.num_faults_pending = 0) :
    (advance rate)^[t] b = blockAfter rate b t := by
  induction t with
  | zero => rw [Function.iterate_zero, id, blockAfter_zero rate b h0]
  | succ n ih => rw [Function.iterate_succ_apply', ih, advance_blockAfter rate b n hx]

theorem wellFormed_blockAfter (rate : ℚ) (b : MemBlock) (t : Nat) (h : WellFormed b) :
    WellFormed (blockAfter rate b t) := h

theorem carryInRange_blockAfter (rate : ℚ) (b : MemBlock) (t : Nat) :
    CarryInRange (blockAfter rate b t) :=
  ⟨Int.fract_nonneg _, Int.fract_lt_one _⟩

theorem doFaultCheck_armed_exists (R : Random) (s : State) (harmed : s.FaultInjection = true)
    (h : ∀ b ∈ s.MemBlockHead, TickReady s.FaultRate b) :
    ∃ s1, doFaultCheck R s = some s1 ∧
      s1.MemBlockHead = s.MemBlockHead.map (advance s.FaultRate) ∧
      s1.FaultRate = s.FaultRate ∧ s1.FaultInjection = true ∧
      s1.FaultCount =
        bump^[(s.MemBlockHead.map fun b => Int.toNat ⌊total_faults s.FaultRate b⌋).sum]
          s.FaultCount := by
  obtain ⟨seed', mem', hrun⟩ := doFaultCheck_armed_spec R s harmed h
  exact ⟨_, hrun, rfl, rfl, harmed, rfl⟩

/-- Armed fault checks in a row, on blocks for which each of them is defined. -/
theorem ticks_armed_spec (R : Random) (T : Nat) (s : State) (harmed : s.FaultInjection = true)
    (h : ∀ t, t < T → ∀ b ∈ s.MemBlockHead, TickReady s.FaultRate ((advance s.FaultRate)^[t] b)) :
    ∃ s', ticks R T s = some s' ∧
      s'.MemBlockHead = s.MemBlockHead.map (advance s.FaultRate)^[T] ∧
      s'.FaultRate = s.FaultRate ∧ s'.FaultInjection = true := by
  induction T generalizing s with
  | zero => exact ⟨s, rfl, by simp, rfl, harmed⟩
  | succ n ih =>
    have h0 : ∀ b ∈ s.MemBlockHead, TickReady s.FaultRate b := fun b hb => h 0 (Nat.succ_pos n) b hb
    obtain ⟨s1, hrun, hb1, hr1, ha1, _⟩ := doFaultCheck_armed_exists R s harmed h0
    have hnext : ∀ t, t < n → ∀ b ∈ s1.MemBlockHead,
        TickReady s1.FaultRate ((advance s1.FaultRate)^[t] b) := by
      intro t ht b' hb'
      rw [hb1, List.mem_map] at hb'
      obtain ⟨b, hb, rfl⟩ := hb'
      have := h (t + 1) (by omega) b hb
      rw [Function.iterate_succ_apply] at this
      rw [hr1]
      exact this
    obtain ⟨s', hs', hblocks, hrate', harmed'⟩ := ih s1 ha1 hnext
    refine ⟨s', ?_, ?_, by rw [hrate', hr1], harmed'⟩
    · simp only [ticks, hrun, Option.some_bind]
      exact hs'
    · rw [hblocks, hb1, hr1, List.map_map]
      apply List.map_congr_left
      intro b _
      rw [Function.comp_apply, Function.iterate_succ_apply]

theorem MemOn_block_wellFormed (tid : Nat) (arg : Nat → Nat)
    (h : (MemOn_block tid arg).num_bytes ≠ 0 → (MemOn_block tid arg).num_elems % UINT_MOD ≠ 0) :
    WellFormed (MemOn_block tid arg) :=
  ⟨rfl, rfl, rfl, h⟩

theorem floor_mul_succ_le (x : ℚ) (hx : 0 ≤ x) (t : Nat) :
    ⌊x * (t : ℚ)⌋ ≤ ⌊x * ((t + 1 : Nat) : ℚ)⌋ := by
  apply Int.floor_le_floor
  push_cast
  nlinarith

/-- The whole parts of the successive totals add up to the floor of `x * n`. -/
theorem sum_whole_parts (x : ℚ) (hx : 0 ≤ x) (n : Nat) :
    (((Finset.range n).sum fun t => Int.toNat (⌊x * ((t + 1 : Nat) : ℚ)⌋ - ⌊x * (t : ℚ)⌋) : Nat) : ℤ)
      = ⌊x * (n : ℚ)⌋ := by
  induction n with
  | zero => simp
  | succ k ih =>
    rw [Finset.sum_range_succ, Nat.cast_add, ih,
      Int.toNat_of_nonneg (sub_nonneg.mpr (floor_mul_succ_le x hx k))]
    ring

/-- One armed fault check on a registry holding the single block `blockAfter rate b t`. -/
theorem single_block_step (R : Random) (s : State) (b : MemBlock) (t : Nat)
    (harmed : s.FaultInjection = true) (hrate : 0 ≤ s.FaultRate) (hwf : WellFormed b)
    (hlist : s.MemBlockHead = [blockAfter s.FaultRate b t])
    (hlt : total_faults s.FaultRate (blockAfter s.FaultRate b t) < (UINT_MOD : ℚ)) :
    ∃ s', doFaultCheck R s = some s' ∧ s'.FaultInjection = true ∧ s'.FaultRate = s.FaultRate ∧
      s'.MemBlockHead = [blockAfter s.FaultRate b (t + 1)] ∧
      whole_faults s.FaultRate (blockAfter s.FaultRate b t) = some (Int.toNat
        (⌊s.FaultRate * b.num_kilobytes * ((t + 1 : Nat) : ℚ)⌋
          - ⌊s.FaultRate * b.num_kilobytes * (t : ℚ)⌋)) ∧
      s'.FaultCount = bump^[Int.toNat (⌊s.FaultRate * b.num_kilobytes * ((t + 1 : Nat) : ℚ)⌋
          - ⌊s.FaultRate * b.num_kilobytes * (t : ℚ)⌋)] s.FaultCount := by
  have hx : 0 ≤ s.FaultRate * b.num_kilobytes :=
    mul_nonneg hrate (wellFormed_kilobytes_nonneg b hwf)
  have hready : ∀ b' ∈ s.MemBlockHead, TickReady s.FaultRate b' := by
    intro b' hb'
    rw [hlist, List.mem_singleton] at hb'
    subst hb'
    exact tickReady_of_wellFormed s.FaultRate _ hrate (wellFormed_blockAfter s.FaultRate b t hwf)
      (carryInRange_blockAfter s.FaultRate b t) hlt
  obtain ⟨s', hrun, hb', hr', ha', hfc⟩ := doFaultCheck_armed_exists R s harmed hready
  have hnn := total_faults_blockAfter_nonneg s.FaultRate b t hx
  refine ⟨s', hrun, ha', hr', ?_, ?_, ?_⟩
  · rw [hb', hlist, List.map_singleton, advance_blockAfter s.FaultRate b t hx]
  · unfold whole_faults
    rw [toUInt_of_range _ (by linarith) hlt, floor_total_faults_blockAfter]
  · rw [hfc, hlist, List.map_singleton, List.sum_singleton, floor_total_faults_blockAfter]

theorem example_bytes : (MemOn_block 0 exampleRequest).num_bytes = 400 := by decide

theorem example_kilobytes : (MemOn_block 0 exampleRequest).num_kilobytes = 2 / 5 := by
  show (((MemOn_block 0 exampleRequest).num_bytes : Nat) : ℚ) / 1000 = 2 / 5
  rw [example_bytes]
  norm_num

theorem example_wellFormed : WellFormed (MemOn_block 0 exampleRequest) :=
  MemOn_block_wellFormed 0 exampleRequest (fun _ => by decide)

theorem kilobyte_bytes : (MemOn_block 0 kilobyteRequest).num_bytes = 1000 := by decide

theorem kilobyte_kilobytes : (MemOn_block 0 kilobyteRequest).num_kilobytes = 1 := by
  show (((MemOn_block 0 kilobyteRequest).num_bytes : Nat) : ℚ) / 1000 = 1
  rw [kilobyte_bytes]
  norm_num

theorem kilobyte_wellFormed : WellFormed (MemOn_block 0 kilobyteRequest) :=
  MemOn_block_wellFormed 0 kilobyteRequest (fun _ => by decide)

theorem countInstruction_iterate_mod (n c : Nat) :
    countInstruction^[n] c % UWORD_MOD = (c + n) % UWORD_MOD := by
  induction n generalizing c with
  | zero => simp
  | succ k ih =>
    rw [Function.iterate_succ_apply, ih]
    unfold countInstruction
    rw [Nat.mod_add_mod]
    congr 1
    omega

theorem countInstruction_iterate_of_lt (n c : Nat) (h : c + n < UWORD_MOD) :
    countInstruction^[n] c = c + n := by
  induction n generalizing c with
  | zero => simp
  | succ k ih =>
    have hc : countInstruction c = c + 1 := Nat.mod_eq_of_lt (by omega)
    rw [Function.iterate_succ_apply, hc, ih (c + 1) (by omega)]
    omega

/-- Disarmed fault checks in a row change the instruction counter and nothing else. -/
theorem ticks_disarmed (R : Random) (n : Nat) (s : State) (hoff : s.FaultInjection = false) :
    ticks R n s = some { s with InstructionCount := countInstruction^[n] s.InstructionCount } := by
  induction n generalizing s with
  | zero => rfl
  | succ k ih =>
    simp only [ticks, doFaultCheck_disarmed R s hoff, Option.some_bind]
    exact ih { s with InstructionCount := (s.InstructionCount + 1) % UWORD_MOD } hoff

theorem total_faults_blockAfter_lt (rate : ℚ) (b : MemBlock) (t : Nat) :
    total_faults rate (blockAfter rate b t) < rate * b.num_kilobytes + 1 := by
  show rate * b.num_kilobytes + Int.fract (rate * b.num_kilobytes * t) < _
  have := Int.fract_lt_one (rate * b.num_kilobytes * t)
  linarith

theorem example_step (R : Random) (s : State) (t : Nat) (harmed : s.FaultInjection = true)
    (hrate : s.FaultRate = 1)
    (hlist : s.MemBlockHead = [blockAfter 1 (MemOn_block 0 exampleRequest) t]) :
    ∃ s', doFaultCheck R s = some s' ∧ s'.FaultInjection = true ∧ s'.FaultRate = 1 ∧
      s'.MemBlockHead = [blockAfter 1 (MemOn_block 0 exampleRequest) (t + 1)] ∧
      whole_faults 1 (blockAfter 1 (MemOn_block 0 exampleRequest) t) = some (Int.toNat
        (⌊(2 / 5 : ℚ) * ((t + 1 : Nat) : ℚ)⌋ - ⌊(2 / 5 : ℚ) * (t : ℚ)⌋)) ∧
      s'.FaultCount = bump^[Int.toNat
        (⌊(2 / 5 : ℚ) * ((t + 1 : Nat) : ℚ)⌋ - ⌊(2 / 5 : ℚ) * (t : ℚ)⌋)] s.FaultCount := by
  have hlt : total_faults s.FaultRate (blockAfter s.FaultRate (MemOn_block 0 exampleRequest) t)
      < (UINT_MOD : ℚ) := by
    have h1 := total_faults_blockAfter_lt s.FaultRate (MemOn_block 0 exampleRequest) t
    rw [hrate, example_kilobytes] at h1
    rw [hrate]
    have h32 : ((UINT_MOD : Nat) : ℚ) = 2 ^ 32 := by norm_num [UINT_MOD]
    rw [h32]
    linarith
  obtain ⟨s', h1, h2, h3, h4, h5, h6⟩ := single_block_step R s (MemOn_block 0 exampleRequest) t
    harmed (by rw [hrate]; exact zero_le_one) example_wellFormed (by rw [hrate]; exact hlist) hlt
  rw [hrate, example_kilobytes, one_mul] at h5 h6
  rw [hrate] at h3 h4
  exact ⟨s', h1, h2, h3, h4, h5, h6⟩

theorem example_pending (t : Nat) :
    (blockAfter 1 (MemOn_block 0 exampleRequest) t).num_faults_pending
      = (2 / 5 : ℚ) * (t : ℚ) - ⌊(2 / 5 : ℚ) * (t : ℚ)⌋ := by
  show 1 * (MemOn_block 0 exampleRequest).num_kilobytes * (t : ℚ)
    - ⌊1 * (MemOn_block 0 exampleRequest).num_kilobytes * (t : ℚ)⌋ = _
  rw [example_kilobytes, one_mul]


/-! ## Registry lemmas -/

theorem MemOff_loop_eq (a : Nat) (l prev : List MemBlock) :
    MemOff_loop a prev l = prev ++ l.eraseP (fun b => decide (b.start = a)) := by
  induction l generalizing prev with
  | nil => simp [MemOff_loop]
  | cons b rest ih =>
    by_cases hb : b.start = a
    · simp [MemOff_loop, hb]
    · simp [MemOff_loop, hb, ih]

theorem MemOff_blocks (s : State) (arg : Nat → Nat) :
    (MemOff s arg).MemBlockHead
      = s.MemBlockHead.eraseP (fun b => decide (b.start = arg 1 % UWORD_MOD)) := by
  show MemOff_loop (arg 1 % UWORD_MOD) [] s.MemBlockHead = _
  rw [MemOff_loop_eq, List.nil_append]

theorem eraseP_first_match (a : Nat) (pre post : List MemBlock) (b : MemBlock)
    (hb : b.start = a) (hpre : ∀ x ∈ pre, x.start ≠ a) :
    (pre ++ b :: post).eraseP (fun b => decide (b.start = a)) = pre ++ post := by
  induction pre with
  | nil => simp [hb]
  | cons x rest ih =>
    have hx : x.start ≠ a := hpre x (List.mem_cons_self x rest)
    have hrest : ∀ y ∈ rest, y.start ≠ a := fun y hy => hpre y (List.mem_cons_of_mem x hy)
    simp [hx, ih hrest]

theorem eraseP_no_match (a : Nat) (l : List MemBlock) (h : ∀ x ∈ l, x.start ≠ a) :
    l.eraseP (fun b => decide (b.start = a)) = l := by
  induction l with
  | nil => rfl
  | cons x rest ih =>
    have hx : x.start ≠ a := h x (List.mem_cons_self x rest)
    have hrest : ∀ y ∈ rest, y.start ≠ a := fun y hy => h y (List.mem_cons_of_mem x hy)
    simp [hx, ih hrest]

theorem MemOff_globals (s : State) (arg : Nat → Nat) :
    MemOff s arg = { s with MemBlockHead := (MemOff s arg).MemBlockHead } := rfl


/-! ## Row and column lemmas -/

theorem offset_of_element (start w k : Nat) (hw : w ≠ 0) (hstart : start < UWORD_MOD)
    (haddr : start + k * w < UWORD_MOD) (hk : k < UINT_MOD) :
    udiv ((start + k * w + UWORD_MOD - start % UWORD_MOD) % UWORD_MOD) w = some k ∧
      k % UINT_MOD = k := by
  have h1 : start % UWORD_MOD = start := Nat.mod_eq_of_lt hstart
  have h2 : start + k * w + UWORD_MOD - start = k * w + UWORD_MOD := by omega
  have h3 : (k * w + UWORD_MOD) % UWORD_MOD = k * w := by
    rw [Nat.add_mod_right, Nat.mod_eq_of_lt (by omega)]
  refine ⟨?_, Nat.mod_eq_of_lt hk⟩
  unfold udiv
  rw [if_neg hw, h1, h2, h3, Nat.mul_div_cancel _ (Nat.pos_of_ne_zero hw)]

theorem major_div (a b n : Nat) (hb : b < n) : (a * n + b) / n = a := by
  have hn : 0 < n := by omega
  rw [Nat.add_comm, Nat.add_mul_div_right _ _ hn, Nat.div_eq_of_lt hb, Nat.zero_add]

theorem major_mod (a b n : Nat) (hb : b < n) : (a * n + b) % n = b := by
  rw [Nat.add_comm, Nat.add_mul_mod_self_right, Nat.mod_eq_of_lt hb]

theorem getRow_of_offset (block : MemBlock) (addr k : Nat)
    (hq : udiv ((addr + UWORD_MOD - block.start % UWORD_MOD) % UWORD_MOD) (sizeof block.type)
      = some k) (hk : k % UINT_MOD = k) (hc : block.num_cols ≠ 0) :
    MemBlock_getRow block addr =
      if block.layout = BITFLIPS_ROW_MAJOR then some ((k / block.num_cols) % UINT_MOD)
      else some ((k % block.num_cols) % UINT_MOD) := by
  unfold MemBlock_getRow
  rw [hq]
  simp only [Option.some_bind, hk, udiv, umod, if_neg hc, Option.map_some']

theorem getCol_of_offset (block : MemBlock) (addr k : Nat)
    (hq : udiv ((addr + UWORD_MOD - block.start % UWORD_MOD) % UWORD_MOD) (sizeof block.type)
      = some k) (hk : k % UINT_MOD = k) (hr : block.num_rows ≠ 0) :
    MemBlock_getCol block addr =
      if block.layout = BITFLIPS_COL_MAJOR then some ((k / block.num_rows) % UINT_MOD)
      else some ((k % block.num_rows) % UINT_MOD) := by
  unfold MemBlock_getCol
  rw [hq]
  simp only [Option.some_bind, hk, udiv, umod, if_neg hr, Option.map_some']

/-! ## Flip address lemmas -/

theorem bump_iterate_mod (w c : Nat) : bump^[w] c % UINT_MOD = (c + w) % UINT_MOD := by
  rw [bump_iterate]
  by_cases hw : w = 0
  · subst hw; simp
  · simp [hw]

theorem bump_iterate_exact (w c : Nat) (h : c + w < UINT_MOD) : bump^[w] c = c + w := by
  rw [bump_iterate]
  by_cases hw : w = 0
  · subst hw; simp
  · simp [hw, Nat.mod_eq_of_lt h]

theorem advance_eq_withPending (rate : ℚ) (b : MemBlock) (h : 0 ≤ total_faults rate b) :
    advance rate b = withPending b (total_faults rate b - ⌊total_faults rate b⌋) := by
  have hp := advance_pending rate b h
  have hshape : advance rate b = withPending b (advance rate b).num_faults_pending := rfl
  rw [hshape, hp]
  rfl

theorem idle_total_faults (rate : ℚ) (b : MemBlock) (hk : b.num_kilobytes = 0)
    (hp : b.num_faults_pending = 0) : total_faults rate b = 0 := by
  unfold total_faults
  rw [hk, hp]
  simp

theorem idle_whole_faults (rate : ℚ) (b : MemBlock) (hk : b.num_kilobytes = 0)
    (hp : b.num_faults_pending = 0) : whole_faults rate b = some 0 := by
  unfold whole_faults
  rw [idle_total_faults rate b hk hp, toUInt_of_range 0 (by norm_num) (by norm_num [UINT_MOD])]
  simp

theorem idle_advance (rate : ℚ) (b : MemBlock) (hk : b.num_kilobytes = 0)
    (hp : b.num_faults_pending = 0) : advance rate b = b := by
  rw [advance_eq_withPending rate b (by rw [idle_total_faults rate b hk hp]),
    idle_total_faults rate b hk hp]
  cases b
  simp only [withPending] at *
  simp [hp]

/-- A block without kilobytes and without pending fraction passes the block loop
untouched: no draw, no flip, no division. -/
theorem idle_block_step (R : Random) (s : State) (b : MemBlock) (rest : List MemBlock)
    (hk : b.num_kilobytes = 0) (hp : b.num_faults_pending = 0) :
    doFaultCheck_blocks R s (b :: rest) =
      (doFaultCheck_blocks R s rest).map fun r => (r.1, b :: r.2) := by
  have ht := idle_total_faults s.FaultRate b hk hp
  have hw := idle_whole_faults s.FaultRate b hk hp
  have hb : ({ b with
      num_faults_pending := (total_faults s.FaultRate b - ((0 : Nat) : ℚ)) } : MemBlock) = b := by
    rw [ht]
    cases b
    simp only at hp
    simp [hp]
  have hs : ({ s with KilobyteFlux := s.KilobyteFlux + b.num_kilobytes } : State) = s := by
    rw [hk, add_zero]
  simp only [doFaultCheck_blocks, hw, Option.some_bind]
  rw [hb, hs]
  simp only [doFaultCheck_flips, Option.some_bind]

theorem idle_blocks (R : Random) (s : State) (bs : List MemBlock)
    (h : ∀ b ∈ bs, b.num_kilobytes = 0 ∧ b.num_faults_pending = 0) :
    doFaultCheck_blocks R s bs = some (s, bs) := by
  induction bs with
  | nil => rfl
  | cons b rest ih =>
    obtain ⟨hk, hp⟩ := h b (List.mem_cons_self b rest)
    rw [idle_block_step R s b rest hk hp, ih (fun x hx => h x (List.mem_cons_of_mem b hx))]
    rfl

theorem idle_doFaultCheck (R : Random) (s : State)
    (h : ∀ b ∈ s.MemBlockHead, b.num_kilobytes = 0 ∧ b.num_faults_pending = 0) :
    doFaultCheck R s = some { s with InstructionCount := countInstruction s.InstructionCount } := by
  by_cases harmed : s.FaultInjection = true
  · rw [doFaultCheck_armed_eq R s harmed, idle_blocks R _ s.MemBlockHead h]
    rfl
  · have hoff : s.FaultInjection = false := by simpa using harmed
    rw [doFaultCheck_disarmed R s hoff]
    rfl

theorem idle_ticks (R : Random) (n : Nat) (s : State)
    (h : ∀ b ∈ s.MemBlockHead, b.num_kilobytes = 0 ∧ b.num_faults_pending = 0) :
    ticks R n s = some { s with InstructionCount := countInstruction^[n] s.InstructionCount } := by
  induction n generalizing s with
  | zero => rfl
  | succ k ih =>
    simp only [ticks, idle_doFaultCheck R s h, Option.some_bind]
    exact ih { s with InstructionCount := countInstruction s.InstructionCount } h

theorem MemOn_block_idle (tid : Nat) (arg : Nat → Nat)
    (h : (MemOn_block tid arg).num_elems = 0 ∨ sizeof (MemOn_block tid arg).type = 0) :
    (MemOn_block tid arg).num_bytes = 0 ∧ (MemOn_block tid arg).num_kilobytes = 0 := by
  have hb : (MemOn_block tid arg).num_bytes = 0 := by
    show ((MemOn_block tid arg).num_elems * sizeof (MemOn_block tid arg).type) % UWORD_MOD = 0
    rcases h with h | h <;> rw [h] <;> simp
  refine ⟨hb, ?_⟩
  show (((MemOn_block tid arg).num_bytes : Nat) : ℚ) / 1000 = 0
  rw [hb]
  simp


/-! ## Uniformity of the shuffle -/

/-- A completed fault check maps one function over the block list, and that function
changes no field other than the pending fraction. -/
theorem doFaultCheck_blocks_frame (R : Random) (s s' : State)
    (h : doFaultCheck R s = some s') :
    ∃ f : MemBlock → MemBlock, s'.MemBlockHead = s.MemBlockHead.map f ∧
      ∀ b, f b = withPending b (f b).num_faults_pending := by
  cases harmed : s.FaultInjection with
  | true =>
    exact ⟨advance s.FaultRate, (doFaultCheck_armed_of_some R s s' harmed h).1, fun _ => rfl⟩
  | false =>
    rw [doFaultCheck_disarmed R s harmed] at h
    have hs : s' = { s with InstructionCount := (s.InstructionCount + 1) % UWORD_MOD } :=
      (Option.some.inj h).symm
    refine ⟨id, ?_, fun _ => rfl⟩
    rw [hs, List.map_id]

/-- The fault check completes when the engine is disarmed, and when each block is ready. -/
theorem doFaultCheck_exists (R : Random) (s : State)
    (h : s.FaultInjection = false ∨ ∀ b ∈ s.MemBlockHead, TickReady s.FaultRate b) :
    ∃ s', doFaultCheck R s = some s' := by
  cases harmed : s.FaultInjection with
  | false => exact ⟨_, doFaultCheck_disarmed R s harmed⟩
  | true =>
    rcases h with h | h
    · rw [harmed] at h; cases h
    · obtain ⟨s1, h1, _⟩ := doFaultCheck_armed_exists R s harmed h
      exact ⟨s1, h1⟩

theorem twoBlockState_blocks :
    twoBlockState.MemBlockHead = [MemOn_block 1 exampleRequest, MemOn_block 0 kilobyteRequest] :=
  rfl

theorem twoBlockState_ready :
    ∀ b ∈ twoBlockState.MemBlockHead, TickReady twoBlockState.FaultRate b := by
  have h32 : ((UINT_MOD : Nat) : ℚ) = 2 ^ 32 := by norm_num [UINT_MOD]
  have hrate : twoBlockState.FaultRate = 1 := rfl
  intro b hb
  rw [twoBlockState_blocks] at hb
  simp only [List.mem_cons, List.mem_singleton, List.not_mem_nil, or_false] at hb
  rcases hb with hb | hb
  · subst hb
    refine tickReady_of_wellFormed _ _ (by rw [hrate]; exact zero_le_one)
      (MemOn_block_wellFormed 1 exampleRequest (fun _ => by decide))
      ⟨le_refl 0, zero_lt_one⟩ ?_
    have hbytes : (MemOn_block 1 exampleRequest).num_bytes = 400 := by decide
    show twoBlockState.FaultRate * ((((MemOn_block 1 exampleRequest).num_bytes : Nat) : ℚ) / 1000)
      + 0 < _
    rw [hrate, hbytes, h32]
    norm_num
  · subst hb
    refine tickReady_of_wellFormed _ _ (by rw [hrate]; exact zero_le_one)
      kilobyte_wellFormed ⟨le_refl 0, zero_lt_one⟩ ?_
    show twoBlockState.FaultRate * (MemOn_block 0 kilobyteRequest).num_kilobytes + 0 < _
    rw [hrate, kilobyte_kilobytes, h32]
    norm_num

/-- A roll of 100 or more lies in no row of the table. -/
theorem getFlipSize_scan_high (r : Nat) (h : 100 ≤ r) :
    getFlipSize_scan r BitFlipDensity = 0 := by
  simp only [getFlipSize_scan, BitFlipDensity]
  repeat rw [if_neg (by omega)]

theorem getFlipSize_scan_low : ∀ r, r < 100 → getFlipSize_scan r BitFlipDensity ≠ 5 := by
  decide


/-! ## Claims -/

/-- C2. A flip event `BF_(doFlipBits)` on an element of 1, 2, 4 or 8 bytes, in a block
whose type, rows and columns are not zero, for every original value, generator and
seed: the flip count `f` sampled by `BF_(getFlipSize)` lies in `[1, 8 * size]`, the
mask built for it has no bit at or above `8 * size`, the element stored is the
original XOR the mask truncated to the element width, and the Hamming distance
between the original and the stored element is exactly `f`.  The mask built for any
other count `f` in `[1, 8 * size]` below 64 (a count no flip event reaches above 7)
likewise has no bit at or above `8 * size` and changes exactly `f` bits. -/
theorem doFlipBits_hamming (R : Random) (s : State) (addr size : Nat) (block : MemBlock)
    (hsize : size = 1 ∨ size = 2 ∨ size = 4 ∨ size = 8)
    (hsz : sizeof block.type ≠ 0) (hr : block.num_rows ≠ 0) (hc : block.num_cols ≠ 0) :
    (∃ mask seed' s',
      getFlipMask R (getFlipSize R s.Seed).2 (8 * size) (getFlipSize R s.Seed).1
        = some (mask, seed') ∧
      doFlipBits R s addr size block = some s' ∧
      1 ≤ (getFlipSize R s.Seed).1 ∧ (getFlipSize R s.Seed).1 ≤ 8 * size ∧
      mask < 2 ^ (8 * size) ∧
      load s'.memory addr size = load s.memory addr size ^^^ (mask % 2 ^ (8 * size)) ∧
      popcount (load s.memory addr size ^^^ load s'.memory addr size)
        = (getFlipSize R s.Seed).1) ∧
    (∀ f seed original, 1 ≤ f → f ≤ 8 * size → f < 64 → original < 2 ^ (8 * size) →
      ∃ mask seed', getFlipMask R seed (8 * size) f = some (mask, seed') ∧
        mask < 2 ^ (8 * size) ∧
        popcount (original ^^^ ((original ^^^ (mask % 2 ^ (8 * size))) % 2 ^ (8 * size))) = f) := by
  constructor
  · obtain ⟨mask, seed', hmask, hpop, hlt, hrun⟩ := doFlipBits_branch_spec R s addr size hsize
    obtain ⟨r, hrow⟩ := getRow_defined block addr hsz hc
    obtain ⟨c, hcol⟩ := getCol_defined block addr hsz hr
    obtain ⟨hf1, hf7⟩ := getFlipSize_bounds R s.Seed
    have hload : load s.memory addr size < 2 ^ (8 * size) := by
      rw [two_pow_eight_mul]; exact load_lt _ _ _
    have hx : load s.memory addr size ^^^ mask < 256 ^ size := by
      rw [← two_pow_eight_mul]; exact Nat.xor_lt_two_pow hload hlt
    have hstored : load (store s.memory addr size (load s.memory addr size ^^^ mask)) addr size
        = load s.memory addr size ^^^ mask := by
      rw [load_store, Nat.mod_eq_of_lt hx]
    have hsize7 : (getFlipSize R s.Seed).1 ≤ 8 * size := by omega
    refine ⟨mask, seed',
      { s with
        Seed := seed'
        memory := store s.memory addr size (load s.memory addr size ^^^ mask)
        FaultCount := (s.FaultCount + 1) % UINT_MOD },
      hmask, ?_, hf1, hsize7, hlt, ?_, ?_⟩
    · rw [← hrun]
      unfold doFlipBits
      rw [hrow, hcol]
      rcases hsize with h | h | h | h <;> simp [h]
    · show load (store s.memory addr size (load s.memory addr size ^^^ mask)) addr size = _
      rw [hstored, Nat.mod_eq_of_lt hlt]
    · show popcount (load s.memory addr size ^^^
        load (store s.memory addr size (load s.memory addr size ^^^ mask)) addr size) = _
      rw [hstored, popcount_xor_xor, hpop]
  · intro f seed original hf1 hfw hf64 horig
    obtain ⟨mask, seed', hrun, hpop, hlt⟩ :=
      getFlipMask_spec R seed (8 * size) f (by omega) (by omega) hfw hf64
    refine ⟨mask, seed', hrun, hlt, ?_⟩
    rw [Nat.mod_eq_of_lt hlt, Nat.mod_eq_of_lt (Nat.xor_lt_two_pow horig hlt), popcount_xor_xor,
      hpop]

theorem doFlipBits_hamming_witness :
    ∃ mask seed' s',
      getFlipMask lcg (getFlipSize lcg (initial fun _ => 0).Seed).2 (8 * 4)
        (getFlipSize lcg (initial fun _ => 0).Seed).1 = some (mask, seed') ∧
      doFlipBits lcg (initial fun _ => 0) 0x1000 4 (MemOn_block 0 exampleRequest) = some s' ∧
      1 ≤ (getFlipSize lcg (initial fun _ => 0).Seed).1 ∧
      (getFlipSize lcg (initial fun _ => 0).Seed).1 ≤ 8 * 4 ∧
      mask < 2 ^ (8 * 4) ∧
      load s'.memory 0x1000 4 = load (initial fun _ => 0).memory 0x1000 4 ^^^ (mask % 2 ^ (8 * 4)) ∧
      popcount (load (initial fun _ => 0).memory 0x1000 4 ^^^ load s'.memory 0x1000 4)
        = (getFlipSize lcg (initial fun _ => 0).Seed).1 :=
  (doFlipBits_hamming lcg (initial fun _ => 0) 0x1000 4 (MemOn_block 0 exampleRequest)
    (by decide) (by decide) (by decide) (by decide)).1

/-- C3. For every percentile roll `r` in `[0, 99]` the scan of the density table made by
`BF_(getFlipSize)` stops at a row of the table whose inclusive range holds `r` and
returns its bit count, which lies in `[1, 7]` and so is not the default `0`; hence
`BF_(getFlipSize)` itself returns a count in `[1, 7]` for every generator and seed. -/
theorem getFlipSize_range :
    (∀ r, r ≤ 99 →
      (∃ d ∈ BitFlipDensity, d.lo ≤ r ∧ r ≤ d.hi ∧ getFlipSize_scan r BitFlipDensity = d.bits) ∧
      1 ≤ getFlipSize_scan r BitFlipDensity ∧ getFlipSize_scan r BitFlipDensity ≤ 7 ∧
      getFlipSize_scan r BitFlipDensity ≠ 0) ∧
    (∀ (R : Random) (seed : Nat), 1 ≤ (getFlipSize R seed).1 ∧ (getFlipSize R seed).1 ≤ 7) := by
  refine ⟨?_, getFlipSize_bounds⟩
  have h : ∀ r, r < 100 →
      (∃ d ∈ BitFlipDensity, d.lo ≤ r ∧ r ≤ d.hi ∧ getFlipSize_scan r BitFlipDensity = d.bits) ∧
      1 ≤ getFlipSize_scan r BitFlipDensity ∧ getFlipSize_scan r BitFlipDensity ≤ 7 ∧
      getFlipSize_scan r BitFlipDensity ≠ 0 := by
    decide
  intro r hr
  exact h r (by omega)

theorem getFlipSize_range_witness :
    (∃ d ∈ BitFlipDensity, d.lo ≤ 97 ∧ 97 ≤ d.hi ∧ getFlipSize_scan 97 BitFlipDensity = d.bits) ∧
      1 ≤ getFlipSize_scan 97 BitFlipDensity ∧ getFlipSize_scan 97 BitFlipDensity ≤ 7 ∧
      getFlipSize_scan 97 BitFlipDensity ≠ 0 :=
  getFlipSize_range.1 97 (by decide)

/-- C4. Carry invariant of `BF_(doFaultCheck)`, in exact arithmetic.  Take an armed
engine with a fault rate that is not negative, in which every block has non-negative
kilobytes and a pending fraction in `[0, 1)`.  Then (1) after the fault check every
block has `0 <= num_faults_pending < 1`; (2) the fault check does complete when every
block is well formed and `rate * kilobytes + pending` is below `2 ^ 32`; (3) the same
bounds hold after any number of consecutive fault checks; and (4) a block as
`BF_(MemOn)` registers it starts with pending fraction 0 and non-negative kilobytes. -/
theorem carry_invariant (R : Random) (s : State) (harmed : s.FaultInjection = true)
    (hrate : 0 ≤ s.FaultRate)
    (hblocks : ∀ b ∈ s.MemBlockHead, 0 ≤ b.num_kilobytes ∧ CarryInRange b) :
    (∀ s', doFaultCheck R s = some s' →
      ∀ b ∈ s'.MemBlockHead, 0 ≤ b.num_faults_pending ∧ b.num_faults_pending < 1) ∧
    ((∀ b ∈ s.MemBlockHead, WellFormed b ∧
        s.FaultRate * b.num_kilobytes + b.num_faults_pending < 2 ^ 32) →
      ∃ s', doFaultCheck R s = some s') ∧
    (∀ n s', ticks R n s = some s' →
      ∀ b ∈ s'.MemBlockHead, 0 ≤ b.num_faults_pending ∧ b.num_faults_pending < 1) ∧
    (∀ tid arg, (MemOn_block tid arg).num_faults_pending = 0 ∧
      0 ≤ (MemOn_block tid arg).num_kilobytes) := by
  refine ⟨?_, ?_, ?_, ?_⟩
  · intro s' h b hb
    exact ((doFaultCheck_preserves R s s' harmed hrate hblocks h).2.2 b hb).2
  · intro hwf
    have hready : ∀ b ∈ s.MemBlockHead, TickReady s.FaultRate b := by
      intro b hb
      obtain ⟨h1, h2⟩ := hwf b hb
      refine tickReady_of_wellFormed s.FaultRate b hrate h1 (hblocks b hb).2 ?_
      have : ((UINT_MOD : Nat) : ℚ) = 2 ^ 32 := by norm_num [UINT_MOD]
      rw [this]; exact h2
    obtain ⟨seed', mem', hrun⟩ := doFaultCheck_armed_spec R s harmed hready
    exact ⟨_, hrun⟩
  · intro n s' h b hb
    exact (ticks_preserves R n s s' harmed hrate hblocks h b hb).2
  · intro tid arg
    refine ⟨rfl, ?_⟩
    show 0 ≤ (((MemOn_block tid arg).num_bytes : Nat) : ℚ) / 1000
    positivity

theorem carry_invariant_witness :
    ∃ s', doFaultCheck lcg exampleState = some s' ∧
      ∀ b ∈ s'.MemBlockHead, 0 ≤ b.num_faults_pending ∧ b.num_faults_pending < 1 := by
  have hblocks : ∀ b ∈ exampleState.MemBlockHead, 0 ≤ b.num_kilobytes ∧ CarryInRange b := by
    intro b hb
    have hb' : b = MemOn_block 0 exampleRequest := by simpa [exampleState, registered, MemOn, initial] using hb
    subst hb'
    refine ⟨?_, ?_, ?_⟩
    · show 0 ≤ (((MemOn_block 0 exampleRequest).num_bytes : Nat) : ℚ) / 1000
      positivity
    · show (0 : ℚ) ≤ 0
      exact le_refl 0
    · show (0 : ℚ) < 1
      exact zero_lt_one
  have hrate : (0 : ℚ) ≤ exampleState.FaultRate := by
    show (0 : ℚ) ≤ 1
    exact zero_le_one
  have h := carry_invariant lcg exampleState rfl hrate hblocks
  have hdef : ∀ b ∈ exampleState.MemBlockHead, WellFormed b ∧
      exampleState.FaultRate * b.num_kilobytes + b.num_faults_pending < 2 ^ 32 := by
    intro b hb
    have hb' : b = MemOn_block 0 exampleRequest := by simpa [exampleState, registered, MemOn, initial] using hb
    subst hb'
    refine ⟨MemOn_block_wellFormed 0 exampleRequest (fun _ => by decide), ?_⟩
    show (1 : ℚ) * ((((MemOn_block 0 exampleRequest).num_bytes : Nat) : ℚ) / 1000) + 0 < 2 ^ 32
    have hbytes : (MemOn_block 0 exampleRequest).num_bytes = 400 := by decide
    rw [hbytes]
    norm_num
  obtain ⟨s', hs'⟩ := h.2.1 hdef
  exact ⟨s', hs', h.1 s' hs'⟩

/-- C5 (amended). For `T` consecutive armed fault checks at a fixed rate that is not
negative, on well-formed blocks that start with pending fraction 0, and provided
`rate * kilobytes + pending` stays below `2 ^ 32` at each of the checks: every state
along the way exists, each block then holds the fractional part of
`rate * kilobytes * t`, and for each block the whole counts `w t` computed by the
successive checks satisfy `W_T + pending_T = rate * kilobytes * T` and
`W_T = floor (rate * kilobytes * T)`, where `W_T` is the sum of `w t` over `t < T`. -/
theorem flips_sum (R : Random) (s : State) (T : Nat) (harmed : s.FaultInjection = true)
    (hrate : 0 ≤ s.FaultRate)
    (hblocks : ∀ b ∈ s.MemBlockHead, WellFormed b ∧ b.num_faults_pending = 0)
    (hbound : ∀ b ∈ s.MemBlockHead, ∀ t, t < T →
      s.FaultRate * b.num_kilobytes + (blockAfter s.FaultRate b t).num_faults_pending < 2 ^ 32) :
    (∀ t, t ≤ T → ∃ s_t, ticks R t s = some s_t ∧
      s_t.MemBlockHead = s.MemBlockHead.map fun b => blockAfter s.FaultRate b t) ∧
    (∀ b ∈ s.MemBlockHead, ∃ w : Nat → Nat,
      (∀ t, t < T → whole_faults s.FaultRate (blockAfter s.FaultRate b t) = some (w t)) ∧
      (((Finset.range T).sum w : Nat) : ℚ) + (blockAfter s.FaultRate b T).num_faults_pending
        = s.FaultRate * b.num_kilobytes * T ∧
      (((Finset.range T).sum w : Nat) : ℤ) = ⌊s.FaultRate * b.num_kilobytes * T⌋) := by
  have hx : ∀ b ∈ s.MemBlockHead, 0 ≤ s.FaultRate * b.num_kilobytes := fun b hb =>
    mul_nonneg hrate (wellFormed_kilobytes_nonneg b (hblocks b hb).1)
  have hlt : ∀ b ∈ s.MemBlockHead, ∀ t, t < T →
      total_faults s.FaultRate (blockAfter s.FaultRate b t) < (UINT_MOD : ℚ) := by
    intro b hb t ht
    have h32 : ((UINT_MOD : Nat) : ℚ) = 2 ^ 32 := by norm_num [UINT_MOD]
    rw [h32]
    exact hbound b hb t ht
  constructor
  · intro t ht
    obtain ⟨s_t, hrun, hlist, _, _⟩ := ticks_armed_spec R t s harmed (by
      intro t' ht' b hb
      rw [iterate_advance s.FaultRate b t' (hx b hb) (hblocks b hb).2]
      exact tickReady_of_wellFormed s.FaultRate _ hrate
        (wellFormed_blockAfter s.FaultRate b t' (hblocks b hb).1)
        (carryInRange_blockAfter s.FaultRate b t') (hlt b hb t' (by omega)))
    refine ⟨s_t, hrun, ?_⟩
    rw [hlist]
    apply List.map_congr_left
    intro b hb
    exact iterate_advance s.FaultRate b t (hx b hb) (hblocks b hb).2
  · intro b hb
    refine ⟨fun t => Int.toNat (⌊s.FaultRate * b.num_kilobytes * ((t + 1 : Nat) : ℚ)⌋
      - ⌊s.FaultRate * b.num_kilobytes * (t : ℚ)⌋), ?_, ?_, ?_⟩
    · intro t ht
      have hnn := total_faults_blockAfter_nonneg s.FaultRate b t (hx b hb)
      unfold whole_faults
      rw [toUInt_of_range _ (by linarith) (hlt b hb t ht), floor_total_faults_blockAfter]
    · have hsum := sum_whole_parts (s.FaultRate * b.num_kilobytes) (hx b hb) T
      have hq : (((Finset.range T).sum fun t => Int.toNat
          (⌊s.FaultRate * b.num_kilobytes * ((t + 1 : Nat) : ℚ)⌋
            - ⌊s.FaultRate * b.num_kilobytes * (t : ℚ)⌋) : Nat) : ℚ)
          = ((⌊s.FaultRate * b.num_kilobytes * (T : ℚ)⌋ : ℤ) : ℚ) := by
        rw [← hsum, Int.cast_natCast]
      rw [hq, blockAfter_pending, Int.fract]
      ring
    · exact sum_whole_parts (s.FaultRate * b.num_kilobytes) (hx b hb) T

theorem flips_sum_witness :
    ∃ s3, ticks lcg 3 exampleState = some s3 ∧
      s3.MemBlockHead = exampleState.MemBlockHead.map
        fun b => blockAfter exampleState.FaultRate b 3 := by
  have hblocks : ∀ b ∈ exampleState.MemBlockHead, WellFormed b ∧ b.num_faults_pending = 0 := by
    intro b hb
    have hb' : b = MemOn_block 0 exampleRequest := by
      simpa [exampleState, registered, MemOn, initial] using hb
    subst hb'
    exact ⟨example_wellFormed, rfl⟩
  have hbound : ∀ b ∈ exampleState.MemBlockHead, ∀ t, t < 3 →
      exampleState.FaultRate * b.num_kilobytes
        + (blockAfter exampleState.FaultRate b t).num_faults_pending < 2 ^ 32 := by
    intro b hb t _
    have hb' : b = MemOn_block 0 exampleRequest := by
      simpa [exampleState, registered, MemOn, initial] using hb
    subst hb'
    have h1 := total_faults_blockAfter_lt 1 (MemOn_block 0 exampleRequest) t
    rw [example_kilobytes] at h1
    have h2 : exampleState.FaultRate * (MemOn_block 0 exampleRequest).num_kilobytes
        + (blockAfter exampleState.FaultRate (MemOn_block 0 exampleRequest) t).num_faults_pending
        = total_faults 1 (blockAfter 1 (MemOn_block 0 exampleRequest) t) := rfl
    rw [h2]
    linarith
  exact (flips_sum lcg exampleState 3 rfl (by show (0 : ℚ) ≤ 1; exact zero_le_one)
    hblocks hbound).1 3 (le_refl 3)

/-- C5, as stated, fails: with one block of a thousand bytes (one kilobyte), pending
fraction 0 and the rate `2 ^ 32`, which is not negative, the first armed fault check
computes `total_faults = 2 ^ 32`, which has no `UInt` value, so no whole count equal to
`floor (rate * kilobytes * 1)` is produced and the check has no defined result. -/
theorem flips_sum_counterexample :
    overflowState.FaultInjection = true ∧ 0 ≤ overflowState.FaultRate ∧
    overflowState.MemBlockHead = [MemOn_block 0 kilobyteRequest] ∧
    WellFormed (MemOn_block 0 kilobyteRequest) ∧
    (MemOn_block 0 kilobyteRequest).num_faults_pending = 0 ∧
    total_faults overflowState.FaultRate (MemOn_block 0 kilobyteRequest) = 4294967296 ∧
    whole_faults overflowState.FaultRate (MemOn_block 0 kilobyteRequest) = none ∧
    ticks lcg 1 overflowState = none := by
  have htotal : total_faults overflowState.FaultRate (MemOn_block 0 kilobyteRequest)
      = 4294967296 := by
    show (4294967296 : ℚ) * (MemOn_block 0 kilobyteRequest).num_kilobytes + 0 = 4294967296
    rw [kilobyte_kilobytes]
    norm_num
  have hrate : (0 : ℚ) ≤ overflowState.FaultRate := by
    show (0 : ℚ) ≤ 4294967296
    norm_num
  have hwhole : whole_faults overflowState.FaultRate (MemOn_block 0 kilobyteRequest) = none := by
    unfold whole_faults toUInt
    rw [htotal, if_neg]
    rintro ⟨_, h⟩
    norm_num [UINT_MOD] at h
  refine ⟨rfl, hrate, rfl, kilobyte_wellFormed, rfl, htotal, hwhole, ?_⟩
  cases hrun : doFaultCheck lcg overflowState with
  | none => simp [ticks, hrun]
  | some s' =>
    exfalso
    have h := (doFaultCheck_armed_of_some lcg overflowState s' rfl hrun).2.2.2.2
      (MemOn_block 0 kilobyteRequest) (List.mem_singleton.mpr rfl)
    rw [htotal] at h
    norm_num [UINT_MOD] at h

/-- C6. End to end: with the single block of ten by ten `BITFLIPS_INT` elements, row
major, at `0x1000` and the rate 1, for every generator and guest memory: the block has
100 elements of width 4, 400 bytes, 2/5 kilobytes; the first armed fault check computes
whole 0 and leaves pending 2/5, the second whole 0 and pending 4/5, the third whole 1
and pending 1/5; `FaultCount` is 0, 0, 1 after the three checks. -/
theorem end_to_end (R : Random) (memory : Nat → Nat) :
    (registered memory).MemBlockHead = [MemOn_block 0 exampleRequest] ∧
    (MemOn_block 0 exampleRequest).type = BITFLIPS_INT ∧
    (MemOn_block 0 exampleRequest).layout = BITFLIPS_ROW_MAJOR ∧
    sizeof (MemOn_block 0 exampleRequest).type = 4 ∧
    (MemOn_block 0 exampleRequest).num_elems = 100 ∧
    (MemOn_block 0 exampleRequest).num_bytes = 400 ∧
    (MemOn_block 0 exampleRequest).num_kilobytes = 2 / 5 ∧
    ∃ s1 s2 s3 b1 b2 b3,
      doFaultCheck R (registered memory) = some s1 ∧
      doFaultCheck R s1 = some s2 ∧
      doFaultCheck R s2 = some s3 ∧
      s1.MemBlockHead = [b1] ∧ s2.MemBlockHead = [b2] ∧ s3.MemBlockHead = [b3] ∧
      whole_faults 1 (MemOn_block 0 exampleRequest) = some 0 ∧ b1.num_faults_pending = 2 / 5 ∧
      whole_faults 1 b1 = some 0 ∧ b2.num_faults_pending = 4 / 5 ∧
      whole_faults 1 b2 = some 1 ∧ b3.num_faults_pending = 1 / 5 ∧
      s1.FaultCount = 0 ∧ s2.FaultCount = 0 ∧ s3.FaultCount = 1 := by
  refine ⟨rfl, by decide, by decide, by decide, by decide, by decide, example_kilobytes, ?_⟩
  have h0 : (registered memory).MemBlockHead = [blockAfter 1 (MemOn_block 0 exampleRequest) 0] := by
    rw [blockAfter_zero 1 _ rfl]; rfl
  obtain ⟨s1, r1, a1, f1, l1, w1, c1⟩ := example_step R (registered memory) 0 rfl rfl h0
  obtain ⟨s2, r2, a2, f2, l2, w2, c2⟩ := example_step R s1 1 a1 f1 l1
  obtain ⟨s3, r3, a3, f3, l3, w3, c3⟩ := example_step R s2 2 a2 f2 l2
  rw [blockAfter_zero 1 _ rfl] at w1
  have e1 : Int.toNat (⌊(2 / 5 : ℚ) * ((0 + 1 : Nat) : ℚ)⌋ - ⌊(2 / 5 : ℚ) * ((0 : Nat) : ℚ)⌋) = 0 := by
    norm_num
  have e2 : Int.toNat (⌊(2 / 5 : ℚ) * ((1 + 1 : Nat) : ℚ)⌋ - ⌊(2 / 5 : ℚ) * ((1 : Nat) : ℚ)⌋) = 0 := by
    norm_num
  have e3 : Int.toNat (⌊(2 / 5 : ℚ) * ((2 + 1 : Nat) : ℚ)⌋ - ⌊(2 / 5 : ℚ) * ((2 : Nat) : ℚ)⌋) = 1 := by
    norm_num
  rw [e1] at w1 c1
  rw [e2] at w2 c2
  rw [e3] at w3 c3
  have hc1 : s1.FaultCount = 0 := c1
  have hc2 : s2.FaultCount = 0 := by rw [c2]; exact hc1
  have hc3 : s3.FaultCount = 1 := by rw [c3, hc2]; rfl
  refine ⟨s1, s2, s3, _, _, _, r1, r2, r3, l1, l2, l3, w1, ?_, w2, ?_, w3, ?_, hc1, hc2, hc3⟩
  · rw [example_pending]; norm_num
  · rw [example_pending]; norm_num
  · rw [example_pending]; norm_num

/-- C7. A disarmed engine: for every state with `FaultInjection = False` and every `n`,
`n` calls of `BF_(doFaultCheck)` complete and leave `FaultCount`, the guest memory, the
block list (so every `num_faults_pending`) and every other global unchanged, except
`InstructionCount`, which advances by `n` in 64-bit arithmetic, and by exactly `n`
when the counter does not wrap. -/
theorem disarmed_ticks (R : Random) (s : State) (n : Nat) (hoff : s.FaultInjection = false) :
    ∃ s', ticks R n s = some s' ∧
      s'.FaultCount = s.FaultCount ∧ s'.memory = s.memory ∧
      s'.MemBlockHead = s.MemBlockHead ∧
      s'.MemBlockHead.map (fun b => b.num_faults_pending)
        = s.MemBlockHead.map (fun b => b.num_faults_pending) ∧
      s'.FaultRate = s.FaultRate ∧ s'.FaultInjection = false ∧
      s'.KilobyteFlux = s.KilobyteFlux ∧ s'.Seed = s.Seed ∧ s'.Verbose = s.Verbose ∧
      s'.InstructionCount % UWORD_MOD = (s.InstructionCount + n) % UWORD_MOD ∧
      (s.InstructionCount + n < UWORD_MOD → s'.InstructionCount = s.InstructionCount + n) :=
  ⟨_, ticks_disarmed R n s hoff, rfl, rfl, rfl, rfl, rfl, hoff, rfl, rfl, rfl,
    countInstruction_iterate_mod n s.InstructionCount,
    countInstruction_iterate_of_lt n s.InstructionCount⟩

theorem disarmed_ticks_witness :
    ∃ s', ticks lcg 5 disarmedState = some s' ∧
      s'.FaultCount = disarmedState.FaultCount ∧ s'.memory = disarmedState.memory ∧
      s'.MemBlockHead = disarmedState.MemBlockHead ∧
      s'.MemBlockHead.map (fun b => b.num_faults_pending)
        = disarmedState.MemBlockHead.map (fun b => b.num_faults_pending) ∧
      s'.FaultRate = disarmedState.FaultRate ∧ s'.FaultInjection = false ∧
      s'.KilobyteFlux = disarmedState.KilobyteFlux ∧ s'.Seed = disarmedState.Seed ∧
      s'.Verbose = disarmedState.Verbose ∧
      s'.InstructionCount % UWORD_MOD = (disarmedState.InstructionCount + 5) % UWORD_MOD ∧
      (disarmedState.InstructionCount + 5 < UWORD_MOD →
        s'.InstructionCount = disarmedState.InstructionCount + 5) :=
  disarmed_ticks lcg disarmedState 5 rfl

/-- C8. `BF_(MemOff)` with address `a` in `arg[1]`: if the block list is
`pre ++ b :: post` where `b` starts at `a` and no block of `pre` does, the list becomes
`pre ++ post`; if no block starts at `a`, the state is unchanged; in every case the
list is the old one without its first block that starts at `a` and no other global
changes. -/
theorem MemOff_first_match (s : State) (arg : Nat → Nat) (a : Nat)
    (ha : arg 1 % UWORD_MOD = a) :
    (∀ pre b post, s.MemBlockHead = pre ++ b :: post → b.start = a →
      (∀ x ∈ pre, x.start ≠ a) → (MemOff s arg).MemBlockHead = pre ++ post) ∧
    ((∀ x ∈ s.MemBlockHead, x.start ≠ a) → MemOff s arg = s) ∧
    (MemOff s arg).MemBlockHead = s.MemBlockHead.eraseP (fun b => decide (b.start = a)) ∧
    MemOff s arg = { s with MemBlockHead := (MemOff s arg).MemBlockHead } := by
  subst ha
  refine ⟨?_, ?_, MemOff_blocks s arg, rfl⟩
  · intro pre b post hlist hb hpre
    rw [MemOff_blocks, hlist, eraseP_first_match _ pre post b hb hpre]
  · intro hnone
    rw [MemOff_globals, MemOff_blocks, eraseP_no_match _ _ hnone]

theorem MemOff_first_match_witness :
    (MemOff exampleState exampleRequest).MemBlockHead = [] ++ [] ∧
    MemOff (initial fun _ => 0) exampleRequest = initial fun _ => 0 :=
  ⟨(MemOff_first_match exampleState exampleRequest 0x1000 (by decide)).1 []
      (MemOn_block 0 exampleRequest) [] rfl (by decide) (by simp),
    (MemOff_first_match (initial fun _ => 0) exampleRequest 0x1000 (by decide)).2.1
      (by intro x hx; simp [initial] at hx)⟩

/-- C9. Two blocks `A` then `B` registered with the same start `a`: the first
`BF_(MemOff)` of `a` removes `B`, the block added last, and leaves `A` in front of the
previous list; the second removes `A`; the third changes nothing when no block of the
previous list starts at `a`. -/
theorem MemOff_same_start (s : State) (tidA tidB : Nat) (argA argB argOff : Nat → Nat) (a : Nat)
    (hA : argA 1 % UWORD_MOD = a) (hB : argB 1 % UWORD_MOD = a)
    (hOff : argOff 1 % UWORD_MOD = a) :
    MemOff (MemOn (MemOn s tidA argA) tidB argB) argOff = MemOn s tidA argA ∧
    (MemOn s tidA argA).MemBlockHead = MemOn_block tidA argA :: s.MemBlockHead ∧
    MemOff (MemOff (MemOn (MemOn s tidA argA) tidB argB) argOff) argOff = s ∧
    ((∀ x ∈ s.MemBlockHead, x.start ≠ a) →
      MemOff (MemOff (MemOff (MemOn (MemOn s tidA argA) tidB argB) argOff) argOff) argOff = s) := by
  have hstartA : (MemOn_block tidA argA).start = a := hA
  have hstartB : (MemOn_block tidB argB).start = a := hB
  have h1 : MemOff (MemOn (MemOn s tidA argA) tidB argB) argOff = MemOn s tidA argA := by
    rw [MemOff_globals, MemOff_blocks, hOff]
    have := eraseP_first_match a [] (MemOn_block tidA argA :: s.MemBlockHead)
      (MemOn_block tidB argB) hstartB (by simp)
    simp only [List.nil_append] at this
    show ({ (MemOn (MemOn s tidA argA) tidB argB) with
      MemBlockHead := (MemOn_block tidB argB :: MemOn_block tidA argA :: s.MemBlockHead).eraseP
        (fun b => decide (b.start = a)) } : State) = _
    rw [this]
    rfl
  have h2 : MemOff (MemOn s tidA argA) argOff = s := by
    rw [MemOff_globals, MemOff_blocks, hOff]
    have := eraseP_first_match a [] s.MemBlockHead (MemOn_block tidA argA) hstartA (by simp)
    simp only [List.nil_append] at this
    show ({ (MemOn s tidA argA) with
      MemBlockHead := (MemOn_block tidA argA :: s.MemBlockHead).eraseP
        (fun b => decide (b.start = a)) } : State) = _
    rw [this]
    rfl
  refine ⟨h1, rfl, by rw [h1, h2], ?_⟩
  intro hnone
  rw [h1, h2, MemOff_globals, MemOff_blocks, hOff, eraseP_no_match _ _ hnone]

theorem MemOff_same_start_witness :
    MemOff (MemOn (MemOn (initial fun _ => 0) 1 exampleRequest) 2 exampleRequest) exampleRequest
      = MemOn (initial fun _ => 0) 1 exampleRequest ∧
    (MemOn (initial fun _ => 0) 1 exampleRequest).MemBlockHead
      = MemOn_block 1 exampleRequest :: (initial fun _ => 0).MemBlockHead ∧
    MemOff (MemOff (MemOn (MemOn (initial fun _ => 0) 1 exampleRequest) 2 exampleRequest)
      exampleRequest) exampleRequest = initial fun _ => 0 :=
  have h := MemOff_same_start (initial fun _ => 0) 1 2 exampleRequest exampleRequest
    exampleRequest 0x1000 (by decide) (by decide) (by decide)
  ⟨h.1, h.2.1, h.2.2.1⟩

/-- C10. `BF_(MemOn)` with a request whose words are 64-bit values: the new list is a
new block followed by the previous list, unchanged and in the same order, and no other
global changes.  The new block has `start`, `num_rows`, `num_cols` from the request,
`type` and `layout` from the low and high flag bits, `num_elems = rows * cols`,
`num_bytes = num_elems * sizeof(type)` and `end = start + num_bytes - 1` in 64-bit
arithmetic (and as exact integers when nothing wraps), `num_kilobytes = num_bytes / 1000`
and `num_faults_pending = 0`. -/
theorem MemOn_pushes_front (s : State) (tid : Nat) (arg : Nat → Nat)
    (harg : ∀ i, arg i < UWORD_MOD) :
    ∃ block,
      (MemOn s tid arg).MemBlockHead = block :: s.MemBlockHead ∧
      MemOn s tid arg = { s with MemBlockHead := block :: s.MemBlockHead } ∧
      block.start = arg 1 ∧ block.num_rows = arg 2 ∧ block.num_cols = arg 3 ∧
      block.type = arg 5 &&& 1023 ∧ block.layout = arg 5 &&& 3072 ∧
      block.num_elems = (arg 2 * arg 3) % UWORD_MOD ∧
      block.num_bytes = (block.num_elems * sizeof block.type) % UWORD_MOD ∧
      block.num_kilobytes = (block.num_bytes : ℚ) / 1000 ∧
      block.end_ = (block.start + block.num_bytes + UWORD_MOD - 1) % UWORD_MOD ∧
      block.num_faults_pending = 0 ∧
      (arg 2 * arg 3 < UWORD_MOD → block.num_elems = arg 2 * arg 3) ∧
      (arg 2 * arg 3 * sizeof block.type < UWORD_MOD →
        block.num_bytes = arg 2 * arg 3 * sizeof block.type) ∧
      (1 ≤ block.start + block.num_bytes → block.start + block.num_bytes ≤ UWORD_MOD →
        block.end_ = block.start + block.num_bytes - 1) := by
  have h1 : arg 1 % UWORD_MOD = arg 1 := Nat.mod_eq_of_lt (harg 1)
  have h2 : arg 2 % UWORD_MOD = arg 2 := Nat.mod_eq_of_lt (harg 2)
  have h3 : arg 3 % UWORD_MOD = arg 3 := Nat.mod_eq_of_lt (harg 3)
  have h5 : arg 5 % UWORD_MOD = arg 5 := Nat.mod_eq_of_lt (harg 5)
  have htype : (MemOn_block tid arg).type = arg 5 &&& 1023 := by
    show (arg 5 % UWORD_MOD) &&& (BITFLIPS_ROW_MAJOR - 1) = _
    rw [h5]; rfl
  have hlayout : (MemOn_block tid arg).layout = arg 5 &&& 3072 := by
    show (arg 5 % UWORD_MOD) &&& (BITFLIPS_ROW_MAJOR + BITFLIPS_COL_MAJOR) = _
    rw [h5]; rfl
  have helems : (MemOn_block tid arg).num_elems = (arg 2 * arg 3) % UWORD_MOD := by
    show ((arg 2 % UWORD_MOD) * (arg 3 % UWORD_MOD)) % UWORD_MOD = _
    rw [h2, h3]
  have hbytes : (MemOn_block tid arg).num_bytes
      = ((MemOn_block tid arg).num_elems * sizeof (MemOn_block tid arg).type) % UWORD_MOD := rfl
  have hend : (MemOn_block tid arg).end_
      = ((MemOn_block tid arg).start + (MemOn_block tid arg).num_bytes + UWORD_MOD - 1)
          % UWORD_MOD := rfl
  refine ⟨MemOn_block tid arg, rfl, rfl, h1, h2, h3, htype, hlayout, helems, hbytes, rfl, hend,
    rfl, ?_, ?_, ?_⟩
  · intro hlt
    rw [helems, Nat.mod_eq_of_lt hlt]
  · intro hlt
    have hle : arg 2 * arg 3 ≤ arg 2 * arg 3 * sizeof (MemOn_block tid arg).type ∨
        sizeof (MemOn_block tid arg).type = 0 := by
      rcases Nat.eq_zero_or_pos (sizeof (MemOn_block tid arg).type) with h0 | hpos
      · exact Or.inr h0
      · exact Or.inl (Nat.le_mul_of_pos_right _ hpos)
    rcases hle with hle | h0
    · rw [hbytes, helems, Nat.mod_eq_of_lt (lt_of_le_of_lt hle hlt), Nat.mod_eq_of_lt hlt]
    · rw [hbytes, h0]; simp
  · intro hpos hle
    rw [hend]
    have hM : 0 < UWORD_MOD := by decide
    have : (MemOn_block tid arg).start + (MemOn_block tid arg).num_bytes + UWORD_MOD - 1
        = ((MemOn_block tid arg).start + (MemOn_block tid arg).num_bytes - 1) + UWORD_MOD := by
      omega
    rw [this, Nat.add_mod_right, Nat.mod_eq_of_lt (by omega)]

theorem MemOn_pushes_front_witness :
    ∃ block,
      (MemOn exampleState 0 exampleRequest).MemBlockHead = block :: exampleState.MemBlockHead ∧
      block.start = 0x1000 ∧ block.num_elems = 100 ∧ block.num_bytes = 400 ∧
      block.end_ = 0x1000 + 400 - 1 ∧ block.num_faults_pending = 0 := by
  have harg : ∀ i, exampleRequest i < UWORD_MOD := by
    intro i
    unfold exampleRequest
    split_ifs <;> decide
  obtain ⟨block, h1, _, h3, _, _, h6, _, _, _, _, _, h12, h13, h14, h15⟩ :=
    MemOn_pushes_front exampleState 0 exampleRequest harg
  have hty : sizeof block.type = 4 := by rw [h6]; decide
  have hel : block.num_elems = 100 := h13 (by decide)
  have hby : block.num_bytes = 400 := by
    have := h14 (by rw [hty]; decide)
    rw [hty] at this
    exact this
  have hst : block.start = 0x1000 := h3
  refine ⟨block, h1, hst, hel, hby, ?_, h12⟩
  have := h15 (by rw [hst, hby]; decide) (by rw [hst, hby]; decide)
  rw [hst, hby] at this
  exact this


/-- C14. Over the 100 percentile rolls `0 .. 99` the scan of the density table returns
1 for exactly 61 rolls, 2 for exactly 30 rolls and 7 for exactly 1 roll. -/
theorem density_counts :
    ((List.range 100).filter fun r => getFlipSize_scan r BitFlipDensity = 1).length = 61 ∧
    ((List.range 100).filter fun r => getFlipSize_scan r BitFlipDensity = 2).length = 30 ∧
    ((List.range 100).filter fun r => getFlipSize_scan r BitFlipDensity = 7).length = 1 := by
  decide

/-- C15. For each of the ten element types `t` and each of the two layouts `o`,
`BF_(MemOn)` called with the flags word `t | o` stores `type = t` and `layout = o` in
the block it puts at the head of the list. -/
theorem MemOn_decodes_flags (s : State) (tid : Nat) (arg : Nat → Nat) (t o : Nat)
    (ht : t ∈ memTypes) (ho : o ∈ memOrders) (hflags : arg 5 = t ||| o) :
    (MemOn_block tid arg).type = t ∧ (MemOn_block tid arg).layout = o ∧
    (MemOn s tid arg).MemBlockHead.head? = some (MemOn_block tid arg) := by
  have hall : ∀ t ∈ memTypes, ∀ o ∈ memOrders,
      ((t ||| o) % UWORD_MOD) &&& (BITFLIPS_ROW_MAJOR - 1) = t ∧
      ((t ||| o) % UWORD_MOD) &&& (BITFLIPS_ROW_MAJOR + BITFLIPS_COL_MAJOR) = o := by
    decide
  obtain ⟨h1, h2⟩ := hall t ht o ho
  refine ⟨?_, ?_, rfl⟩
  · show (arg 5 % UWORD_MOD) &&& (BITFLIPS_ROW_MAJOR - 1) = t
    rw [hflags]; exact h1
  · show (arg 5 % UWORD_MOD) &&& (BITFLIPS_ROW_MAJOR + BITFLIPS_COL_MAJOR) = o
    rw [hflags]; exact h2

theorem MemOn_decodes_flags_witness :
    (MemOn_block 0 exampleRequest).type = BITFLIPS_INT ∧
    (MemOn_block 0 exampleRequest).layout = BITFLIPS_ROW_MAJOR ∧
    (MemOn (initial fun _ => 0) 0 exampleRequest).MemBlockHead.head?
      = some (MemOn_block 0 exampleRequest) :=
  MemOn_decodes_flags (initial fun _ => 0) 0 exampleRequest BITFLIPS_INT BITFLIPS_ROW_MAJOR
    (by decide) (by decide) (by decide)

/-- C19. `BF_(sizeof)` returns 1 for `CHAR` and `UCHAR`, 2 for `SHORT` and `USHORT`,
4 for `INT` and `UINT`, 8 for `LONG` and `ULONG`, 4 for `FLOAT`, 8 for `DOUBLE`, and 0
for every other value, such as 0 or two type bits together; so the width of every
block `BF_(MemOn)` registers is 0, 1, 2, 4 or 8. -/
theorem sizeof_values :
    sizeof BITFLIPS_CHAR = 1 ∧ sizeof BITFLIPS_UCHAR = 1 ∧
    sizeof BITFLIPS_SHORT = 2 ∧ sizeof BITFLIPS_USHORT = 2 ∧
    sizeof BITFLIPS_INT = 4 ∧ sizeof BITFLIPS_UINT = 4 ∧
    sizeof BITFLIPS_LONG = 8 ∧ sizeof BITFLIPS_ULONG = 8 ∧
    sizeof BITFLIPS_FLOAT = 4 ∧ sizeof BITFLIPS_DOUBLE = 8 ∧
    (∀ t, t ∉ memTypes → sizeof t = 0) ∧
    sizeof 0 = 0 ∧ sizeof (BITFLIPS_CHAR ||| BITFLIPS_INT) = 0 ∧
    (∀ tid arg, sizeof (MemOn_block tid arg).type = 0 ∨ sizeof (MemOn_block tid arg).type = 1 ∨
      sizeof (MemOn_block tid arg).type = 2 ∨ sizeof (MemOn_block tid arg).type = 4 ∨
      sizeof (MemOn_block tid arg).type = 8) := by
  refine ⟨by decide, by decide, by decide, by decide, by decide, by decide, by decide,
    by decide, by decide, by decide, ?_, by decide, by decide, fun _ _ => sizeof_cases _⟩
  intro t ht
  simp only [memTypes, List.mem_cons, List.mem_singleton, List.not_mem_nil, or_false,
    not_or] at ht
  obtain ⟨h1, h2, h3, h4, h5, h6, h7, h8, h9, h10⟩ := ht
  simp [sizeof, h1, h2, h3, h4, h5, h6, h7, h8, h9, h10]

theorem sizeof_values_witness : sizeof 3 = 0 :=
  sizeof_values.2.2.2.2.2.2.2.2.2.2.1 3 (by decide)

/-- C18. The engine starts armed.  A request the host recognises as a tool request is
handled as follows: `BITFLIPS_ON` sets `FaultInjection` to `True` and `BITFLIPS_OFF`
sets it to `False`, each leaving 0 in `*ret`, returning `True` and changing no other
global; a request that is not a tool request, or whose code is none of the four
BITFLIPS codes, changes no state, leaves `*ret` alone and returns `False`. -/
theorem client_requests (H : Host) (s : State) (tid : Nat) (arg : Nat → Nat) (ret : Nat) :
    (∀ memory, (initial memory).FaultInjection = true) ∧
    (H.isToolRequest (arg 0 % UWORD_MOD) = true →
      arg 0 % UWORD_MOD = VG_USERREQ__BITFLIPS_ON H →
      handle_client_request H s tid arg ret = ({ s with FaultInjection := true }, 0, true)) ∧
    (H.isToolRequest (arg 0 % UWORD_MOD) = true →
      arg 0 % UWORD_MOD = VG_USERREQ__BITFLIPS_OFF H →
      handle_client_request H s tid arg ret = ({ s with FaultInjection := false }, 0, true)) ∧
    (arg 0 % UWORD_MOD ≠ VG_USERREQ__BITFLIPS_ON H →
      arg 0 % UWORD_MOD ≠ VG_USERREQ__BITFLIPS_OFF H →
      arg 0 % UWORD_MOD ≠ VG_USERREQ__BITFLIPS_MEM_ON H →
      arg 0 % UWORD_MOD ≠ VG_USERREQ__BITFLIPS_MEM_OFF H →
      handle_client_request H s tid arg ret = (s, ret, false)) ∧
    (H.isToolRequest (arg 0 % UWORD_MOD) = false →
      handle_client_request H s tid arg ret = (s, ret, false)) := by
  refine ⟨fun _ => rfl, ?_, ?_, ?_, ?_⟩
  · intro htool hon
    unfold handle_client_request
    rw [if_neg (by rw [htool]; decide), if_pos hon]
  · intro htool hoff
    have hne : arg 0 % UWORD_MOD ≠ VG_USERREQ__BITFLIPS_ON H := by
      rw [hoff]; unfold VG_USERREQ__BITFLIPS_ON VG_USERREQ__BITFLIPS_OFF; omega
    unfold handle_client_request
    rw [if_neg (by rw [htool]; decide), if_neg hne, if_pos hoff]
  · intro h1 h2 h3 h4
    unfold handle_client_request
    by_cases htool : H.isToolRequest (arg 0 % UWORD_MOD) = false
    · rw [if_pos htool]
    · rw [if_neg htool, if_neg h1, if_neg h2, if_neg h3, if_neg h4]
  · intro htool
    unfold handle_client_request
    rw [if_pos htool]

theorem client_requests_witness :
    handle_client_request valgrindHost exampleState 0 offRequest 7
      = ({ exampleState with FaultInjection := false }, 0, true) :=
  (client_requests valgrindHost exampleState 0 offRequest 7).2.2.1 (by decide) (by decide)

/-- C16. `BF_(MemBlock_getRow)` on the address of element `(r, c)` of a block of width
`w > 0` whose elements fit a 32-bit offset and whose addresses do not wrap: under
`ROW_MAJOR` it returns `r`; under `COL_MAJOR` it returns `(c * rows + r) % cols`, which
is `r` for a square block but not in general: for the block of 2 rows and 3 columns of
bytes at `0x1000`, column major, the element `(0, 1)` at `0x1002` is mapped to row 2. -/
theorem getRow_of_element (block : MemBlock) (r c : Nat)
    (hw : sizeof block.type ≠ 0) (hr : r < block.num_rows) (hc : c < block.num_cols)
    (hstart : block.start < UWORD_MOD) (haddr : elementAddress block r c < UWORD_MOD)
    (hfit : block.num_rows * block.num_cols ≤ UINT_MOD) :
    (block.layout = BITFLIPS_ROW_MAJOR →
      MemBlock_getRow block (elementAddress block r c) = some r) ∧
    (block.layout = BITFLIPS_COL_MAJOR →
      MemBlock_getRow block (elementAddress block r c)
        = some ((c * block.num_rows + r) % block.num_cols)) ∧
    (block.layout = BITFLIPS_COL_MAJOR → block.num_rows = block.num_cols →
      MemBlock_getRow block (elementAddress block r c) = some r) ∧
    (elementAddress (MemOn_block 0 (matrixRequest BITFLIPS_COL_MAJOR)) 0 1 = 0x1002 ∧
      MemBlock_getRow (MemOn_block 0 (matrixRequest BITFLIPS_COL_MAJOR)) 0x1002 = some 2) := by
  have hc0 : block.num_cols ≠ 0 := by omega
  have hrowk : r * block.num_cols + c < UINT_MOD := by
    have : r * block.num_cols + c < block.num_rows * block.num_cols := by
      calc r * block.num_cols + c < r * block.num_cols + block.num_cols := by omega
        _ = (r + 1) * block.num_cols := by ring
        _ ≤ block.num_rows * block.num_cols := Nat.mul_le_mul_right _ hr
    omega
  have hcolk : c * block.num_rows + r < UINT_MOD := by
    have : c * block.num_rows + r < block.num_cols * block.num_rows := by
      calc c * block.num_rows + r < c * block.num_rows + block.num_rows := by omega
        _ = (c + 1) * block.num_rows := by ring
        _ ≤ block.num_cols * block.num_rows := Nat.mul_le_mul_right _ hc
    rw [Nat.mul_comm block.num_cols] at this
    omega
  have hcol : block.layout = BITFLIPS_COL_MAJOR →
      MemBlock_getRow block (elementAddress block r c)
        = some ((c * block.num_rows + r) % block.num_cols) := by
    intro hl
    have hnot : block.layout ≠ BITFLIPS_ROW_MAJOR := by rw [hl]; decide
    have he : elementAddress block r c
        = block.start + (c * block.num_rows + r) * sizeof block.type := by
      unfold elementAddress; rw [if_neg hnot]
    rw [he] at haddr ⊢
    obtain ⟨hq, hk⟩ := offset_of_element block.start (sizeof block.type)
      (c * block.num_rows + r) hw hstart haddr hcolk
    rw [getRow_of_offset block _ _ hq hk hc0, if_neg hnot,
      Nat.mod_eq_of_lt (lt_of_le_of_lt (Nat.mod_le _ _) hcolk)]
  refine ⟨?_, hcol, ?_, by decide, by decide⟩
  · intro hl
    have he : elementAddress block r c
        = block.start + (r * block.num_cols + c) * sizeof block.type := by
      unfold elementAddress; rw [if_pos hl]
    rw [he] at haddr ⊢
    obtain ⟨hq, hk⟩ := offset_of_element block.start (sizeof block.type)
      (r * block.num_cols + c) hw hstart haddr hrowk
    rw [getRow_of_offset block _ _ hq hk hc0, if_pos hl, major_div r c _ hc,
      Nat.mod_eq_of_lt (by omega)]
  · intro hl hsq
    rw [hcol hl, ← hsq, major_mod c r _ hr]

theorem getRow_of_element_witness :
    MemBlock_getRow (MemOn_block 0 (matrixRequest BITFLIPS_ROW_MAJOR))
      (elementAddress (MemOn_block 0 (matrixRequest BITFLIPS_ROW_MAJOR)) 1 2) = some 1 :=
  (getRow_of_element (MemOn_block 0 (matrixRequest BITFLIPS_ROW_MAJOR)) 1 2
    (by decide) (by decide) (by decide) (by decide) (by decide) (by decide)).1 (by decide)

/-- C17. `BF_(MemBlock_getCol)` on the address of element `(r, c)` of a block of width
`w > 0` whose elements fit a 32-bit offset and whose addresses do not wrap: under
`COL_MAJOR` it returns `c`; under `ROW_MAJOR` it returns `(r * cols + c) % rows`, which
is `c` for a square block but not in general: for the block of 2 rows and 3 columns of
bytes at `0x1000`, row major, the element `(0, 2)` at `0x1002` is mapped to column 0. -/
theorem getCol_of_element (block : MemBlock) (r c : Nat)
    (hw : sizeof block.type ≠ 0) (hr : r < block.num_rows) (hc : c < block.num_cols)
    (hstart : block.start < UWORD_MOD) (haddr : elementAddress block r c < UWORD_MOD)
    (hfit : block.num_rows * block.num_cols ≤ UINT_MOD) :
    (block.layout = BITFLIPS_COL_MAJOR →
      MemBlock_getCol block (elementAddress block r c) = some c) ∧
    (block.layout = BITFLIPS_ROW_MAJOR →
      MemBlock_getCol block (elementAddress block r c)
        = some ((r * block.num_cols + c) % block.num_rows)) ∧
    (block.layout = BITFLIPS_ROW_MAJOR → block.num_rows = block.num_cols →
      MemBlock_getCol block (elementAddress block r c) = some c) ∧
    (elementAddress (MemOn_block 0 (matrixRequest BITFLIPS_ROW_MAJOR)) 0 2 = 0x1002 ∧
      MemBlock_getCol (MemOn_block 0 (matrixRequest BITFLIPS_ROW_MAJOR)) 0x1002 = some 0) := by
  have hr0 : block.num_rows ≠ 0 := by omega
  have hrowk : r * block.num_cols + c < UINT_MOD := by
    have : r * block.num_cols + c < block.num_rows * block.num_cols := by
      calc r * block.num_cols + c < r * block.num_cols + block.num_cols := by omega
        _ = (r + 1) * block.num_cols := by ring
        _ ≤ block.num_rows * block.num_cols := Nat.mul_le_mul_right _ hr
    omega
  have hcolk : c * block.num_rows + r < UINT_MOD := by
    have : c * block.num_rows + r < block.num_cols * block.num_rows := by
      calc c * block.num_rows + r < c * block.num_rows + block.num_rows := by omega
        _ = (c + 1) * block.num_rows := by ring
        _ ≤ block.num_cols * block.num_rows := Nat.mul_le_mul_right _ hc
    rw [Nat.mul_comm block.num_cols] at this
    omega
  have hrow : block.layout = BITFLIPS_ROW_MAJOR →
      MemBlock_getCol block (elementAddress block r c)
        = some ((r * block.num_cols + c) % block.num_rows) := by
    intro hl
    have hnot : block.layout ≠ BITFLIPS_COL_MAJOR := by rw [hl]; decide
    have he : elementAddress block r c
        = block.start + (r * block.num_cols + c) * sizeof block.type := by
      unfold elementAddress; rw [if_pos hl]
    rw [he] at haddr ⊢
    obtain ⟨hq, hk⟩ := offset_of_element block.start (sizeof block.type)
      (r * block.num_cols + c) hw hstart haddr hrowk
    rw [getCol_of_offset block _ _ hq hk hr0, if_neg hnot,
      Nat.mod_eq_of_lt (lt_of_le_of_lt (Nat.mod_le _ _) hrowk)]
  refine ⟨?_, hrow, ?_, by decide, by decide⟩
  · intro hl
    have hnot : block.layout ≠ BITFLIPS_ROW_MAJOR := by rw [hl]; decide
    have he : elementAddress block r c
        = block.start + (c * block.num_rows + r) * sizeof block.type := by
      unfold elementAddress; rw [if_neg hnot]
    rw [he] at haddr ⊢
    obtain ⟨hq, hk⟩ := offset_of_element block.start (sizeof block.type)
      (c * block.num_rows + r) hw hstart haddr hcolk
    rw [getCol_of_offset block _ _ hq hk hr0, if_pos hl, major_div c r _ hr,
      Nat.mod_eq_of_lt (by omega)]
  · intro hl hsq
    rw [hrow hl, hsq, major_mod r c _ hc]

theorem getCol_of_element_witness :
    MemBlock_getCol (MemOn_block 0 (matrixRequest BITFLIPS_COL_MAJOR))
      (elementAddress (MemOn_block 0 (matrixRequest BITFLIPS_COL_MAJOR)) 1 2) = some 2 :=
  (getCol_of_element (MemOn_block 0 (matrixRequest BITFLIPS_COL_MAJOR)) 1 2
    (by decide) (by decide) (by decide) (by decide) (by decide) (by decide)).1 (by decide)

/-- C11 (amended). An armed fault check at a rate that is not negative, on well-formed
blocks with a pending fraction in `[0, 1)` and `rate * kilobytes + pending` below
`2 ^ 32`: the check completes; for each block `total = rate * kilobytes + pending`,
the whole count is `floor total`, exactly that many flip events are dispatched, each
through one of the size 1, 2, 4, 8 branches and each counted once, and the pending
fraction becomes `total - floor total`; `FaultCount` advances by the sum of the whole
counts over all blocks, in 32-bit arithmetic (exactly, when the counter does not wrap). -/
theorem tick_accounting (R : Random) (s : State) (harmed : s.FaultInjection = true)
    (hrate : 0 ≤ s.FaultRate)
    (hblocks : ∀ b ∈ s.MemBlockHead, WellFormed b ∧ CarryInRange b ∧
      s.FaultRate * b.num_kilobytes + b.num_faults_pending < 2 ^ 32) :
    ∃ s', doFaultCheck R s = some s' ∧
      s'.MemBlockHead = s.MemBlockHead.map (fun b =>
        withPending b (total_faults s.FaultRate b - ⌊total_faults s.FaultRate b⌋)) ∧
      (∀ b ∈ s.MemBlockHead,
        total_faults s.FaultRate b = s.FaultRate * b.num_kilobytes + b.num_faults_pending ∧
        ∃ w : Nat, whole_faults s.FaultRate b = some w ∧
          (w : ℤ) = ⌊total_faults s.FaultRate b⌋ ∧
          (w ≠ 0 → sizeof b.type = 1 ∨ sizeof b.type = 2 ∨ sizeof b.type = 4 ∨
            sizeof b.type = 8) ∧
          ∀ s0 : State, ∃ seed' mem',
            doFaultCheck_flips R
              (withPending b (total_faults s.FaultRate b - ⌊total_faults s.FaultRate b⌋)) w s0
            = some { s0 with
                Seed := seed', memory := mem', FaultCount := bump^[w] s0.FaultCount }) ∧
      s'.FaultCount =
        bump^[(s.MemBlockHead.map fun b => Int.toNat ⌊total_faults s.FaultRate b⌋).sum]
          s.FaultCount ∧
      s'.FaultCount % UINT_MOD =
        (s.FaultCount
          + (s.MemBlockHead.map fun b => Int.toNat ⌊total_faults s.FaultRate b⌋).sum)
          % UINT_MOD ∧
      (s.FaultCount
          + (s.MemBlockHead.map fun b => Int.toNat ⌊total_faults s.FaultRate b⌋).sum
          < UINT_MOD →
        s'.FaultCount = s.FaultCount
          + (s.MemBlockHead.map fun b => Int.toNat ⌊total_faults s.FaultRate b⌋).sum) := by
  have h32 : ((UINT_MOD : Nat) : ℚ) = 2 ^ 32 := by norm_num [UINT_MOD]
  have hnn : ∀ b ∈ s.MemBlockHead, 0 ≤ total_faults s.FaultRate b := fun b hb =>
    total_faults_nonneg s.FaultRate b hrate (wellFormed_kilobytes_nonneg b (hblocks b hb).1)
      (hblocks b hb).2.1.1
  have hready : ∀ b ∈ s.MemBlockHead, TickReady s.FaultRate b := by
    intro b hb
    obtain ⟨h1, h2, h3⟩ := hblocks b hb
    exact tickReady_of_wellFormed s.FaultRate b hrate h1 h2 (by rw [h32]; exact h3)
  obtain ⟨s', hrun, hlist, _, _, hfc⟩ := doFaultCheck_armed_exists R s harmed hready
  refine ⟨s', hrun, ?_, ?_, hfc, ?_, ?_⟩
  · rw [hlist]
    apply List.map_congr_left
    intro b hb
    exact advance_eq_withPending s.FaultRate b (hnn b hb)
  · intro b hb
    obtain ⟨hlo, hhi, hflip⟩ := hready b hb
    refine ⟨rfl, Int.toNat ⌊total_faults s.FaultRate b⌋, toUInt_of_range _ hlo hhi,
      Int.toNat_of_nonneg (Int.floor_nonneg.mpr (hnn b hb)), ?_, ?_⟩
    · intro hw
      have hsz := (hflip hw).2.1
      have := sizeof_cases b.type
      tauto
    · intro s0
      by_cases hw : Int.toNat ⌊total_faults s.FaultRate b⌋ = 0
      · rw [hw]; exact ⟨s0.Seed, s0.memory, rfl⟩
      · obtain ⟨e1, e2, e3, e4⟩ := hflip hw
        exact doFaultCheck_flips_spec R
          (withPending b (total_faults s.FaultRate b - ⌊total_faults s.FaultRate b⌋))
          e1 e2 e3 e4 (Int.toNat ⌊total_faults s.FaultRate b⌋) s0
  · rw [hfc, bump_iterate_mod]
  · intro hlt
    rw [hfc, bump_iterate_exact _ _ hlt]

theorem tick_accounting_witness :
    ∃ s', doFaultCheck lcg exampleState = some s' ∧
      s'.FaultCount = bump^[(exampleState.MemBlockHead.map fun b =>
        Int.toNat ⌊total_faults exampleState.FaultRate b⌋).sum] exampleState.FaultCount := by
  have hblocks : ∀ b ∈ exampleState.MemBlockHead, WellFormed b ∧ CarryInRange b ∧
      exampleState.FaultRate * b.num_kilobytes + b.num_faults_pending < 2 ^ 32 := by
    intro b hb
    have hb' : b = MemOn_block 0 exampleRequest := by
      simpa [exampleState, registered, MemOn, initial] using hb
    subst hb'
    refine ⟨example_wellFormed, ⟨le_refl 0, zero_lt_one⟩, ?_⟩
    show (1 : ℚ) * (MemOn_block 0 exampleRequest).num_kilobytes + 0 < 2 ^ 32
    rw [example_kilobytes]
    norm_num
  obtain ⟨s', h1, _, _, h4, _⟩ := tick_accounting lcg exampleState rfl
    (by show (0 : ℚ) ≤ 1; exact zero_le_one) hblocks
  exact ⟨s', h1, h4⟩

/-- C11, as stated, fails: with the example block of 2/5 kilobytes, pending fraction 0
and the rate `2 * 10 ^ 10`, which is not negative, the armed fault check computes
`total_faults = 8 * 10 ^ 9`, which has no `UInt` value: no whole count equal to
`floor total` exists and the check has no defined result. -/
theorem tick_accounting_counterexample :
    floodState.FaultInjection = true ∧ 0 ≤ floodState.FaultRate ∧
    floodState.MemBlockHead = [MemOn_block 0 exampleRequest] ∧
    total_faults floodState.FaultRate (MemOn_block 0 exampleRequest) = 8000000000 ∧
    whole_faults floodState.FaultRate (MemOn_block 0 exampleRequest) = none ∧
    doFaultCheck lcg floodState = none := by
  have htotal : total_faults floodState.FaultRate (MemOn_block 0 exampleRequest)
      = 8000000000 := by
    show (20000000000 : ℚ) * (MemOn_block 0 exampleRequest).num_kilobytes + 0 = 8000000000
    rw [example_kilobytes]
    norm_num
  have hrate : (0 : ℚ) ≤ floodState.FaultRate := by
    show (0 : ℚ) ≤ 20000000000
    norm_num
  have hwhole : whole_faults floodState.FaultRate (MemOn_block 0 exampleRequest) = none := by
    unfold whole_faults toUInt
    rw [htotal, if_neg]
    rintro ⟨_, h⟩
    norm_num [UINT_MOD] at h
  refine ⟨rfl, hrate, rfl, htotal, hwhole, ?_⟩
  cases hrun : doFaultCheck lcg floodState with
  | none => rfl
  | some s' =>
    exfalso
    have h := (doFaultCheck_armed_of_some lcg floodState s' rfl hrun).2.2.2.2
      (MemOn_block 0 exampleRequest) (List.mem_singleton.mpr rfl)
    rw [htotal] at h
    norm_num [UINT_MOD] at h

/-- C12. A block `BF_(MemOn)` registers with `num_elems = 0`, or with an element type
of width 0, has no bytes, no kilobytes and pending fraction 0.  At every rate its
total is 0, its whole count is 0 and it is left as it was; the block loop passes it
without a draw, a flip or a division (the result is that of the remaining blocks);
and with such a block alone in the registry any number of fault checks complete and
leave the block, `FaultCount`, the seed and the guest memory unchanged. -/
theorem degenerate_region (tid : Nat) (arg : Nat → Nat)
    (h : (MemOn_block tid arg).num_elems = 0 ∨ sizeof (MemOn_block tid arg).type = 0) :
    (MemOn_block tid arg).num_bytes = 0 ∧ (MemOn_block tid arg).num_kilobytes = 0 ∧
    (MemOn_block tid arg).num_faults_pending = 0 ∧
    (∀ rate : ℚ, total_faults rate (MemOn_block tid arg) = 0 ∧
      whole_faults rate (MemOn_block tid arg) = some 0 ∧
      advance rate (MemOn_block tid arg) = MemOn_block tid arg ∧
      ∀ (R : Random) (s : State),
        doFaultCheck_flips R (advance rate (MemOn_block tid arg)) 0 s = some s) ∧
    (∀ (R : Random) (s : State) (rest : List MemBlock),
      doFaultCheck_blocks R s (MemOn_block tid arg :: rest) =
        (doFaultCheck_blocks R s rest).map fun r => (r.1, MemOn_block tid arg :: r.2)) ∧
    (∀ (R : Random) (s : State) (n : Nat), s.MemBlockHead = [MemOn_block tid arg] →
      ∃ s', ticks R n s = some s' ∧ s'.MemBlockHead = [MemOn_block tid arg] ∧
        s'.FaultCount = s.FaultCount ∧ s'.memory = s.memory ∧ s'.Seed = s.Seed ∧
        s'.FaultRate = s.FaultRate) := by
  obtain ⟨hb, hk⟩ := MemOn_block_idle tid arg h
  have hp : (MemOn_block tid arg).num_faults_pending = 0 := rfl
  refine ⟨hb, hk, hp, ?_, ?_, ?_⟩
  · intro rate
    exact ⟨idle_total_faults rate _ hk hp, idle_whole_faults rate _ hk hp,
      idle_advance rate _ hk hp, fun _ _ => rfl⟩
  · intro R s rest
    exact idle_block_step R s _ rest hk hp
  · intro R s n hlist
    have hidle : ∀ b ∈ s.MemBlockHead, b.num_kilobytes = 0 ∧ b.num_faults_pending = 0 := by
      intro b hb'
      rw [hlist, List.mem_singleton] at hb'
      subst hb'
      exact ⟨hk, hp⟩
    exact ⟨_, idle_ticks R n s hidle, hlist, rfl, rfl, rfl, rfl⟩

theorem degenerate_region_witness :
    (MemOn_block 0 emptyRequest).num_bytes = 0 ∧
    whole_faults 1000 (MemOn_block 0 emptyRequest) = some 0 :=
  have h := degenerate_region 0 emptyRequest (Or.inl (by decide))
  ⟨h.1, (h.2.2.2.1 1000).2.1⟩

/-- C21. `BF_(doFaultCheck)` keeps the structure of the block list: whenever the check
completes, the list has the same length, and the block at each position differs from
the one that stood there before in no field other than `num_faults_pending`
(`start`, `end`, `num_bytes`, `num_rows`, `num_cols`, `num_elems`, `num_kilobytes`,
`type`, `layout`, `desc` and `where` are the same), so the order is kept too: the lists
agree once the pending fractions are set aside.  The check does complete when the
engine is disarmed, and when it is armed and each block is ready for it. -/
theorem tick_keeps_registry (R : Random) (s : State) :
    (∀ s', doFaultCheck R s = some s' →
      s'.MemBlockHead.length = s.MemBlockHead.length ∧
      (∀ (i : Nat) (b b' : MemBlock), s.MemBlockHead[i]? = some b → s'.MemBlockHead[i]? = some b' →
        b'.start = b.start ∧ b'.end_ = b.end_ ∧ b'.num_bytes = b.num_bytes ∧
        b'.num_rows = b.num_rows ∧ b'.num_cols = b.num_cols ∧ b'.num_elems = b.num_elems ∧
        b'.num_kilobytes = b.num_kilobytes ∧ b'.type = b.type ∧ b'.layout = b.layout ∧
        b'.desc = b.desc ∧ b'.where_ = b.where_) ∧
      s'.MemBlockHead.map (fun b => withPending b 0)
        = s.MemBlockHead.map (fun b => withPending b 0) ∧
      s'.MemBlockHead.map (fun b => b.start) = s.MemBlockHead.map (fun b => b.start)) ∧
    ((s.FaultInjection = false ∨ ∀ b ∈ s.MemBlockHead, TickReady s.FaultRate b) →
      ∃ s', doFaultCheck R s = some s') := by
  refine ⟨?_, doFaultCheck_exists R s⟩
  intro s' h
  obtain ⟨f, hlist, hf⟩ := doFaultCheck_blocks_frame R s s' h
  refine ⟨by rw [hlist, List.length_map], ?_, ?_, ?_⟩
  · intro i b b' hb hb'
    rw [hlist, List.getElem?_map, hb] at hb'
    have hb'' : b' = f b := (Option.some.inj hb').symm
    rw [hb'', hf b]
    exact ⟨rfl, rfl, rfl, rfl, rfl, rfl, rfl, rfl, rfl, rfl, rfl⟩
  · rw [hlist, List.map_map]
    apply List.map_congr_left
    intro b _
    show withPending (f b) 0 = withPending b 0
    rw [hf b]
    rfl
  · rw [hlist, List.map_map]
    apply List.map_congr_left
    intro b _
    show (f b).start = b.start
    rw [hf b]
    rfl

theorem tick_keeps_registry_witness :
    ∃ s', doFaultCheck lcg twoBlockState = some s' ∧
      s'.MemBlockHead.length = 2 ∧
      s'.MemBlockHead.map (fun b => b.start)
        = [(MemOn_block 1 exampleRequest).start, (MemOn_block 0 kilobyteRequest).start] ∧
      s'.MemBlockHead.map (fun b => withPending b 0)
        = [MemOn_block 1 exampleRequest, MemOn_block 0 kilobyteRequest] := by
  have h := tick_keeps_registry lcg twoBlockState
  obtain ⟨s', hs'⟩ := h.2 (Or.inr twoBlockState_ready)
  obtain ⟨h1, _, h3, h4⟩ := h.1 s' hs'
  exact ⟨s', hs', h1, h4, h3⟩

/-- C22. Registering and at once unregistering: for every engine state and every
request, `BF_(MemOn)` followed by `BF_(MemOff)` with the start address of the request
gives back the state there was before, whether or not the list already held blocks
with that start address: the block removed is the one just pushed at the head, and the
blocks that were there stand as before at each position, pending fractions included. -/
theorem MemOn_MemOff_round_trip (s : State) (tid : Nat) (arg argOff : Nat → Nat)
    (h : argOff 1 % UWORD_MOD = arg 1 % UWORD_MOD) :
    MemOff (MemOn s tid arg) argOff = s ∧
    (MemOn s tid arg).MemBlockHead = MemOn_block tid arg :: s.MemBlockHead ∧
    (MemOff (MemOn s tid arg) argOff).MemBlockHead = s.MemBlockHead ∧
    (∀ i : Nat, (MemOff (MemOn s tid arg) argOff).MemBlockHead[i]? = s.MemBlockHead[i]?) := by
  have hstart : (MemOn_block tid arg).start = argOff 1 % UWORD_MOD := h.symm
  have hback : MemOff (MemOn s tid arg) argOff = s := by
    rw [MemOff_globals, MemOff_blocks]
    have herase := eraseP_first_match (argOff 1 % UWORD_MOD) [] s.MemBlockHead
      (MemOn_block tid arg) hstart (by simp)
    simp only [List.nil_append] at herase
    show ({ (MemOn s tid arg) with
      MemBlockHead := (MemOn_block tid arg :: s.MemBlockHead).eraseP
        (fun b => decide (b.start = argOff 1 % UWORD_MOD)) } : State) = _
    rw [herase]
    rfl
  exact ⟨hback, rfl, by rw [hback], fun i => by rw [hback]⟩

theorem MemOn_MemOff_round_trip_witness :
    exampleState.MemBlockHead.map (fun b => b.start) = [0x1000] ∧
    exampleRequest 1 % UWORD_MOD = 0x1000 ∧
    MemOff (MemOn exampleState 7 exampleRequest) exampleRequest = exampleState :=
  ⟨by decide, by decide,
    (MemOn_MemOff_round_trip exampleState 7 exampleRequest exampleRequest rfl).1⟩

/-- C23. The row `{bits = 5, lo = 97, hi = 97}` of `BitFlipDensity` is never the one
that answers: the table scan of `BF_(getFlipSize)` returns 5 for no roll at all, whether
below 100 or not, and so `BF_(getFlipSize)` returns 5 for no generator and seed.  The
rows whose range holds 97 are, in table order, the row of 4 bits and then the row of
5 bits, and the scan at 97 returns 4; 97 is the only roll the row of 5 bits would
answer, as the scan of the table from that row on shows.  The values returned for the
rolls 0 to 99 are exactly 1, 2, 3, 4, 6 and 7, and a roll of 100 or more gives 0. -/
theorem row_five_unreachable :
    (∀ r, getFlipSize_scan r BitFlipDensity ≠ 5) ∧
    (∀ (R : Random) (seed : Nat), (getFlipSize R seed).1 ≠ 5) ∧
    (BitFlipDensity.filter (fun d => decide (97 ≥ d.lo ∧ 97 ≤ d.hi))).map (fun d => d.bits)
      = [4, 5] ∧
    getFlipSize_scan 97 BitFlipDensity = 4 ∧
    (∀ r, getFlipSize_scan r (BitFlipDensity.drop 4) = 5 ↔ r = 97) ∧
    (∀ v, (∃ r, r ≤ 99 ∧ getFlipSize_scan r BitFlipDensity = v) ↔ v ∈ [1, 2, 3, 4, 6, 7]) ∧
    (Finset.range 100).image (fun r => getFlipSize_scan r BitFlipDensity)
      = {1, 2, 3, 4, 6, 7} ∧
    (∀ r, 100 ≤ r → getFlipSize_scan r BitFlipDensity = 0) := by
  have hall : ∀ r, getFlipSize_scan r BitFlipDensity ≠ 5 := by
    intro r
    by_cases hr : r < 100
    · exact getFlipSize_scan_low r hr
    · rw [getFlipSize_scan_high r (by omega)]
      decide
  have hvals : ∀ r, r < 100 → getFlipSize_scan r BitFlipDensity ∈ [1, 2, 3, 4, 6, 7] := by
    decide
  have himage : (Finset.range 100).image (fun r => getFlipSize_scan r BitFlipDensity)
      = {1, 2, 3, 4, 6, 7} := by
    set_option maxRecDepth 100000 in decide
  refine ⟨hall, fun R seed => hall _, by decide, by decide, ?_, ?_, himage,
    getFlipSize_scan_high⟩
  · intro r
    simp only [BitFlipDensity, List.drop_succ_cons, List.drop_zero, getFlipSize_scan]
    constructor
    · intro h5
      by_contra hne
      rw [if_neg (by omega)] at h5
      split_ifs at h5
      all_goals omega
    · intro h97
      rw [if_pos (by omega)]
  · intro v
    constructor
    · rintro ⟨r, hr, hv⟩
      rw [← hv]
      exact hvals r (by omega)
    · intro hv
      simp only [List.mem_cons, List.mem_singleton, List.not_mem_nil, or_false] at hv
      rcases hv with hv | hv | hv | hv | hv | hv
      · exact ⟨0, by decide, by rw [hv]; decide⟩
      · exact ⟨61, by decide, by rw [hv]; decide⟩
      · exact ⟨91, by decide, by rw [hv]; decide⟩
      · exact ⟨96, by decide, by rw [hv]; decide⟩
      · exact ⟨98, by decide, by rw [hv]; decide⟩
      · exact ⟨99, by decide, by rw [hv]; decide⟩

theorem row_five_unreachable_witness :
    getFlipSize_scan 97 BitFlipDensity ≠ 5 ∧ (getFlipSize lcg 42).1 ≠ 5 ∧
    getFlipSize_scan 1000 BitFlipDensity = 0 :=
  ⟨row_five_unreachable.1 97, row_five_unreachable.2.1 lcg 42,
    row_five_unreachable.2.2.2.2.2.2.2 1000 (by decide)⟩


end BitFlips
